import Mathlib

/-!
# gopbo: the PBO stream codec and validator (`src/pbo/stream.go`)

A shallow embedding of `pboStream` and its methods, followed by theorems about
them.

Modelling conventions
* A byte is a `Fin 256`; a Go `string` or `[]byte` is a `List Byte`.
* `uint32` values are natural numbers, encoded and decoded modulo `2 ^ 32`.
* `int64` offsets are integers; files are far shorter than `2 ^ 63` bytes, so
  no offset arithmetic wraps.
* The embedded `*os.File` is a regular file: a byte list, a cursor and a flag
  telling whether the handle was opened for writing. A read returns every
  available byte up to the size of the buffer, and the only storage failures
  are end of file, a seek before offset 0 and a write on a read-only handle.
* A Go method returning `(value, error)` returns the value, an
  `Option Error` and the stream after the call.
* A write method can also stop in a nil-pointer panic (no hasher installed).
* Loops are recursions on a fuel argument; each caller passes enough fuel for
  the loop to finish on its own, which the theorems establish.
-/

set_option autoImplicit false
set_option maxRecDepth 100000

namespace Pbo

abbrev Byte := Fin 256

/-! ## `crypto/sha1` -/

namespace SHA1

def rotl (n x : Nat) : Nat := ((x <<< n) ||| (x >>> (32 - n))) % 2 ^ 32

def beWord : List Nat → Nat
  | [a, b, c, d] => a * 2 ^ 24 + b * 2 ^ 16 + c * 2 ^ 8 + d
  | _ => 0

def wordBytes (w : Nat) : List Byte :=
  [Fin.ofNat (w / 2 ^ 24), Fin.ofNat (w / 2 ^ 16), Fin.ofNat (w / 2 ^ 8), Fin.ofNat w]

/-- Message padding: `0x80`, zeros up to 56 mod 64, then the bit length as a
big-endian 64-bit integer. -/
def pad (msg : List Nat) : List Nat :=
  let l := msg.length
  let k := (119 - l % 64) % 64
  let bits := 8 * l
  msg ++ [128] ++ List.replicate k 0 ++
    (List.range 8).map (fun i => (bits / 2 ^ (8 * (7 - i))) % 256)

def chunks : Nat → List Nat → List (List Nat)
  | 0, _ => []
  | n + 1, xs => xs.take 64 :: chunks n (xs.drop 64)

def blockWords (b : List Nat) : List Nat :=
  (List.range 16).map (fun i => beWord ((b.drop (4 * i)).take 4))

/-- Message schedule, most recent word first. -/
def expand : Nat → List Nat → List Nat
  | 0, rev => rev
  | n + 1, rev =>
    expand n (rotl 1 (rev.getD 2 0 ^^^ rev.getD 7 0 ^^^ rev.getD 13 0 ^^^ rev.getD 15 0) :: rev)

structure St where
  a : Nat
  b : Nat
  c : Nat
  d : Nat
  e : Nat

def f (t b c d : Nat) : Nat :=
  if t < 20 then (b &&& c) ||| ((b ^^^ (2 ^ 32 - 1)) &&& d)
  else if t < 40 then b ^^^ c ^^^ d
  else if t < 60 then (b &&& c) ||| (b &&& d) ||| (c &&& d)
  else b ^^^ c ^^^ d

def K (t : Nat) : Nat :=
  if t < 20 then 0x5A827999 else if t < 40 then 0x6ED9EBA1
  else if t < 60 then 0x8F1BBCDC else 0xCA62C1D6

def rounds : Nat → List Nat → St → St
  | _, [], s => s
  | t, w :: ws, s =>
    rounds (t + 1) ws
      ⟨(rotl 5 s.a + f t s.b s.c s.d + s.e + K t + w) % 2 ^ 32, s.a, rotl 30 s.b, s.c, s.d⟩

def block (h : St) (b : List Nat) : St :=
  let w := (expand 64 (blockWords b).reverse).reverse
  let r := rounds 0 w h
  ⟨(h.a + r.a) % 2 ^ 32, (h.b + r.b) % 2 ^ 32, (h.c + r.c) % 2 ^ 32,
   (h.d + r.d) % 2 ^ 32, (h.e + r.e) % 2 ^ 32⟩

def init : St := ⟨0x67452301, 0xEFCDAB89, 0x98BADCFE, 0x10325476, 0xC3D2E1F0⟩

/-- The SHA-1 digest of a byte string (FIPS 180). -/
def sum (msg : List Byte) : List Byte :=
  let p := pad (msg.map Fin.val)
  let h := (chunks (p.length / 64) p).foldl block init
  wordBytes h.a ++ wordBytes h.b ++ wordBytes h.c ++ wordBytes h.d ++ wordBytes h.e

end SHA1

/-- A `hash.Hash` made by `sha1.New()`: it remembers the bytes written to it,
and `Sum(nil)` is the SHA-1 digest of all of them. -/
structure Hash where
  written : List Byte
  deriving DecidableEq, Repr

def sha1New : Hash := ⟨[]⟩

def Hash.Write (h : Hash) (b : List Byte) : Hash := ⟨h.written ++ b⟩

def Hash.Sum (h : Hash) : List Byte := SHA1.sum h.written

/-! ## Errors, files, times -/

inductive Error
  | EOF
  | ErrUnexpectedEOF
  | InvalidPackingMethod (code : Nat)
  | ErrInvalidProductEntry
  | ErrFileCorrupted
  | EINVAL
  | EBADF
  | ENOENT
  deriving DecidableEq, Repr

inductive Whence
  | SeekStart
  | SeekCurrent
  | SeekEnd
  deriving DecidableEq, Repr

/-- The `*os.File` embedded in a `pboStream`. -/
structure OsFile where
  data : List Byte
  pos : Nat
  writable : Bool
  deriving DecidableEq, Repr

/-- Go `(*os.File).Read(b)`: copies the available bytes into the front of `b`.
Returns the buffer after the call, the count, the error and the file. -/
def OsFile.Read (f : OsFile) (b : List Byte) : List Byte × Nat × Option Error × OsFile :=
  let got := (f.data.drop f.pos).take b.length
  if b.length = 0 then (b, 0, none, f)
  else if got.length = 0 then (b, 0, some Error.EOF, f)
  else (got ++ b.drop got.length, got.length, none, { f with pos := f.pos + got.length })

/-- Go `(*os.File).Write(b)`: overwrites at the cursor, extending the file (a gap
left by a seek past the end reads as zeros). -/
def OsFile.Write (f : OsFile) (b : List Byte) : Nat × Option Error × OsFile :=
  if f.writable = false then (0, some Error.EBADF, f)
  else if b.length = 0 then (0, none, f)
  else (b.length, none,
    { f with
      data := f.data.take f.pos ++ List.replicate (f.pos - f.data.length) 0 ++ b
                ++ f.data.drop (f.pos + b.length)
      pos := f.pos + b.length })

/-- Go `(*os.File).Seek(offset, whence)`. -/
def OsFile.Seek (f : OsFile) (offset : Int) (whence : Whence) : Int × Option Error × OsFile :=
  let base : Int :=
    match whence with
    | Whence.SeekStart => 0
    | Whence.SeekCurrent => f.pos
    | Whence.SeekEnd => f.data.length
  if base + offset < 0 then (0, some Error.EINVAL, f)
  else (base + offset, none, { f with pos := (base + offset).toNat })

/-- Go `io.ReadFull(f, buf)` with `len(buf) = n`, as `binary.Read` calls it: all
`n` bytes, or `EOF` when none is left, or `ErrUnexpectedEOF` when some but
fewer than `n` are left (the cursor then stands at the end of the file). -/
def OsFile.ReadFull (f : OsFile) (n : Nat) : List Byte × Option Error × OsFile :=
  let got := (f.data.drop f.pos).take n
  let f1 := { f with pos := f.pos + got.length }
  if got.length = n then (got, none, f1)
  else if got.length = 0 then (got, some Error.EOF, f1)
  else (got, some Error.ErrUnexpectedEOF, f1)

/-- Go `binary.LittleEndian.Uint32`. -/
def leUint32 (bs : List Byte) : Nat :=
  (bs.getD 0 0).val + (bs.getD 1 0).val * 2 ^ 8 + (bs.getD 2 0).val * 2 ^ 16
    + (bs.getD 3 0).val * 2 ^ 24

/-- Go `binary.LittleEndian.PutUint32` of `uint32(v)`. -/
def lePutUint32 (v : Nat) : List Byte :=
  [Fin.ofNat v, Fin.ofNat (v / 2 ^ 8), Fin.ofNat (v / 2 ^ 16), Fin.ofNat (v / 2 ^ 24)]

/-- A `time.Time` as an instant: seconds since the UNIX epoch and nanoseconds
within the second. Locations are not modelled; times are compared as instants. -/
structure Time where
  sec : Int
  nsec : Nat
  deriving DecidableEq, Repr

/-- Go `time.Unix(sec, 0)`. -/
def Time.ofUnix (sec : Int) : Time := ⟨sec, 0⟩

/-- Go `t.Unix()`. -/
def Time.Unix (t : Time) : Int := t.sec

/-- The zero `time.Time{}`: 1 January of year 1, 00:00:00 UTC. -/
def Time.zero : Time := ⟨-62135596800, 0⟩

/-- Go `uint32(x)` for an `int64` x. -/
def toUint32 (x : Int) : Nat := (x % 2 ^ 32).toNat

/-! ## The stream and its entries -/

/-- A Go `map[string]V`; `none` stands for the nil map where it matters. -/
abbrev GoMap (V : Type) := List (List Byte × V)

/-- Go `m[k] = v`. -/
def GoMap.set {V : Type} : GoMap V → List Byte → V → GoMap V
  | [], k, v => [(k, v)]
  | (a, b) :: m, k, v => if a = k then (k, v) :: m else (a, b) :: GoMap.set m k v

/-- Go `v, ok := m[k]`. -/
def GoMap.get {V : Type} (m : GoMap V) (k : List Byte) : Option V := List.lookup k m

structure FileEntry where
  Filename : List Byte
  Packing : Nat
  OriginalSize : Nat
  Reserved : Nat
  Timestamp : Time
  DataSize : Nat
  start : Int
  parent : Option Nat
  deriving DecidableEq, Repr

/-- Go `&FileEntry{parent: parent}`. -/
def FileEntry.new (parent : Option Nat) : FileEntry :=
  { Filename := [], Packing := 0, OriginalSize := 0, Reserved := 0, Timestamp := Time.zero,
    DataSize := 0, start := 0, parent := parent }

/-- The declarations of package `pbo` that `stream.go` uses and that live in
other files: the three `PackingMethod` constants (32-bit codes) and the method
`FileEntry.IsEmpty`. They are parameters of the embedding. -/
structure Decls where
  PackingMethodUncompressed : Nat
  PackingMethodPacked : Nat
  PackingMethodProductEntry : Nat
  IsEmpty : FileEntry → Bool
  uncompressed_lt : PackingMethodUncompressed < 2 ^ 32
  packed_lt : PackingMethodPacked < 2 ^ 32
  productEntry_lt : PackingMethodProductEntry < 2 ^ 32

/-- Modelled from the spec: the method `FileEntry.IsProductEntry` is declared
outside `stream.go`; the spec's product-entry check requires
`packingMethod == ProductEntry`. -/
def IsProductEntry (d : Decls) (e : FileEntry) : Bool :=
  decide (e.Packing = d.PackingMethodProductEntry)

/-- Modelled from the spec: a reading of the absent `FileEntry.IsEmpty`, "empty
filename and all numeric fields zero", the packing code counted among the
numeric fields. Used to instantiate `Decls.IsEmpty`. -/
def IsEmptySpec (e : FileEntry) : Bool :=
  decide (e.Filename = [] ∧ e.Packing = 0 ∧ e.OriginalSize = 0 ∧ e.Reserved = 0
    ∧ e.Timestamp.Unix = 0 ∧ e.DataSize = 0)

/-- The codes of the PBO format (none, "Cprs", "Vers") with `IsEmptySpec`. -/
def pboDecls : Decls :=
  { PackingMethodUncompressed := 0x00000000
    PackingMethodPacked := 0x43707273
    PackingMethodProductEntry := 0x56657273
    IsEmpty := IsEmptySpec
    uncompressed_lt := by decide
    packed_lt := by decide
    productEntry_lt := by decide }

def bufferLength : Nat := 8192

structure pboStream where
  dataStart : Int
  cache : Option (GoMap (List Byte))
  hasher : Option Hash
  file : OsFile
  deriving DecidableEq, Repr

/-- How a write method ends: it returns its error, or it panics on the nil
hasher (after the bytes reached the file). -/
inductive WriteResult
  | ret (err : Option Error) (p : pboStream)
  | panic (p : pboStream)
  deriving DecidableEq, Repr

/-- Runs the next write when the previous one returned without error. -/
def WriteResult.andThen (r : WriteResult) (k : pboStream → WriteResult) : WriteResult :=
  match r with
  | WriteResult.ret none p => k p
  | other => other

/-- Go `openPBO`; the argument is what `os.Open(path)` finds. -/
def openPBO (opened : Except Error (List Byte)) : Except Error pboStream :=
  match opened with
  | Except.error e => Except.error e
  | Except.ok data => Except.ok ⟨0, none, none, ⟨data, 0, false⟩⟩

/-- Go `createPBO`; the argument is the error of `os.Create(path)`, if any. -/
def createPBO (created : Option Error) : Except Error pboStream :=
  match created with
  | some e => Except.error e
  | none => Except.ok ⟨0, none, some sha1New, ⟨[], 0, true⟩⟩

/-! ## Primitive codec -/

/-- The loop of `readString`: `b` is the one-byte buffer, `buf` the bytes
accumulated so far. -/
def readStringLoop : Nat → pboStream → List Byte → List Byte →
    List Byte × Option Error × pboStream
  | 0, p, _, buf => (buf, none, p)
  | fuel + 1, p, b, buf =>
    match p.file.Read b with
    | (b1, _, err, f1) =>
      if err.isSome then (buf, err, { p with file := f1 })
      else if b1.getD 0 0 = 0 then (buf, none, { p with file := f1 })
      else readStringLoop fuel { p with file := f1 } b1 (buf ++ b1)

/-- Go `readString`. Every round of the loop takes one byte, so the bytes left
in the file plus one bound the number of rounds. -/
def readString (p : pboStream) : List Byte × Option Error × pboStream :=
  readStringLoop (p.file.data.length - p.file.pos + 1) p [0] []

/-- Go `writeString`. -/
def writeString (p : pboStream) (s : List Byte) : WriteResult :=
  let b := s ++ [0]
  match p.file.Write b with
  | (_, err, f1) =>
    if err.isSome then WriteResult.ret err { p with file := f1 }
    else
      match p.hasher with
      | none => WriteResult.panic { p with file := f1 }
      | some h => WriteResult.ret none { p with file := f1, hasher := some (h.Write b) }

/-- Go `readUInt32`: `binary.Read` of a `uint32`; `val` stays 0 on an error. -/
def readUInt32 (p : pboStream) : Nat × Option Error × pboStream :=
  match p.file.ReadFull 4 with
  | (bs, err, f1) =>
    if err.isSome then (0, err, { p with file := f1 })
    else (leUint32 bs, none, { p with file := f1 })

/-- Go `writeUInt32`: `binary.Write` to the file, then to the hasher. -/
def writeUInt32 (p : pboStream) (val : Nat) : WriteResult :=
  let bs := lePutUint32 val
  match p.file.Write bs with
  | (_, err, f1) =>
    if err.isSome then WriteResult.ret err { p with file := f1 }
    else
      match p.hasher with
      | none => WriteResult.panic { p with file := f1 }
      | some h => WriteResult.ret none { p with file := f1, hasher := some (h.Write bs) }

/-- Go `readPackingMethod`. -/
def readPackingMethod (d : Decls) (p : pboStream) : Nat × Option Error × pboStream :=
  match readUInt32 p with
  | (v, err, p1) =>
    if err.isSome then (d.PackingMethodUncompressed, err, p1)
    else if v = d.PackingMethodUncompressed ∨ v = d.PackingMethodPacked
        ∨ v = d.PackingMethodProductEntry then (v, none, p1)
    else (d.PackingMethodUncompressed, some (Error.InvalidPackingMethod v), p1)

/-- Go `writePackingMethod`. -/
def writePackingMethod (p : pboStream) (pack : Nat) : WriteResult :=
  writeUInt32 p (pack % 2 ^ 32)

/-- Go `readTimestamp`. -/
def readTimestamp (p : pboStream) : Time × Option Error × pboStream :=
  match readUInt32 p with
  | (v, err, p1) => (Time.ofUnix v, err, p1)

/-- Go `writeTimestamp`. -/
def writeTimestamp (p : pboStream) (t : Time) : WriteResult :=
  writeUInt32 p (toUint32 t.Unix)

/-! ## Entry table -/

/-- Go `readFileEntry`: fields are filled in order; the first error returns the
entry as filled so far. -/
def readFileEntry (d : Decls) (p : pboStream) (parent : Option Nat) :
    FileEntry × Option Error × pboStream :=
  let entry := FileEntry.new parent
  match readString p with
  | (name, err, p1) =>
    let entry := { entry with Filename := name }
    if err.isSome then (entry, err, p1)
    else
      match readPackingMethod d p1 with
      | (pack, err, p2) =>
        let entry := { entry with Packing := pack }
        if err.isSome then (entry, err, p2)
        else
          match readUInt32 p2 with
          | (osz, err, p3) =>
            let entry := { entry with OriginalSize := osz }
            if err.isSome then (entry, err, p3)
            else
              match readUInt32 p3 with
              | (res, err, p4) =>
                let entry := { entry with Reserved := res }
                if err.isSome then (entry, err, p4)
                else
                  match readTimestamp p4 with
                  | (ts, err, p5) =>
                    let entry := { entry with Timestamp := ts }
                    if err.isSome then (entry, err, p5)
                    else
                      match readUInt32 p5 with
                      | (dsz, err, p6) => ({ entry with DataSize := dsz }, err, p6)

/-- Go `writeFileEntry`. -/
def writeFileEntry (p : pboStream) (entry : FileEntry) : WriteResult :=
  (((((writeString p entry.Filename).andThen
    (fun p => writePackingMethod p entry.Packing)).andThen
    (fun p => writeUInt32 p entry.OriginalSize)).andThen
    (fun p => writeUInt32 p entry.Reserved)).andThen
    (fun p => writeTimestamp p entry.Timestamp)).andThen
    (fun p => writeUInt32 p entry.DataSize)

/-- The loop of `readFileEntries`; an error returns the entries appended so
far together with it. -/
def readFileEntriesLoop (d : Decls) (parent : Option Nat) :
    Nat → pboStream → Int → List FileEntry → List FileEntry × Option Error × pboStream
  | 0, p, _, entries => (entries, none, p)
  | fuel + 1, p, start, entries =>
    match readFileEntry d p parent with
    | (entry, err, p1) =>
      if err.isSome then (entries, err, p1)
      else if d.IsEmpty entry then (entries, none, p1)
      else
        readFileEntriesLoop d parent fuel p1 (start + (entry.DataSize : Int))
          (entries ++ [{ entry with start := start }])

/-- Go `readFileEntries`. A round that goes on has taken at least 21 bytes. -/
def readFileEntries (d : Decls) (p : pboStream) (parent : Option Nat) :
    List FileEntry × Option Error × pboStream :=
  readFileEntriesLoop d parent (p.file.data.length - p.file.pos + 1) p 0 []

/-- Go `writeFileEntries`. -/
def writeFileEntries : pboStream → List FileEntry → WriteResult
  | p, [] => WriteResult.ret none p
  | p, entry :: rest =>
    match writeFileEntry p entry with
    | WriteResult.ret none p1 => writeFileEntries p1 rest
    | other => other

/-! ## Header table -/

/-- Go `readHeader`. -/
def readHeader (p : pboStream) : List Byte × List Byte × Option Error × pboStream :=
  match readString p with
  | (key, err, p1) =>
    if err.isSome then (key, [], err, p1)
    else
      match readString p1 with
      | (value, err, p2) => (key, value, err, p2)

/-- Go `writeHeader`. -/
def writeHeader (p : pboStream) (key value : List Byte) : WriteResult :=
  (writeString p key).andThen (fun p => writeString p value)

/-- The loop of `readHeaders`. -/
def readHeadersLoop : Nat → pboStream → List Byte → GoMap (List Byte) →
    GoMap (List Byte) × Option Error × pboStream
  | 0, p, _, headers => (headers, none, p)
  | fuel + 1, p, b, headers =>
    match p.file.Read b with
    | (b1, _, err, f1) =>
      if err.isSome ∨ b1.getD 0 0 = 0 then (headers, err, { p with file := f1 })
      else
        match f1.Seek (-1) Whence.SeekCurrent with
        | (_, err, f2) =>
          if err.isSome then (headers, err, { p with file := f2 })
          else
            match readHeader { p with file := f2 } with
            | (key, value, err, p3) =>
              if err.isSome then (headers, err, p3)
              else readHeadersLoop fuel p3 b1 (GoMap.set headers key value)

/-- Go `readHeaders`. A round that goes on has taken at least 3 bytes. -/
def readHeaders (p : pboStream) : GoMap (List Byte) × Option Error × pboStream :=
  readHeadersLoop (p.file.data.length - p.file.pos + 1) p [0] []

/-- Go `writeHeaders`; the list is the map in the order `range` yields it. -/
def writeHeaders : pboStream → List (List Byte × List Byte) → WriteResult
  | p, [] => WriteResult.ret none p
  | p, (key, value) :: rest =>
    match writeHeader p key value with
    | WriteResult.ret none p1 => writeHeaders p1 rest
    | other => other

/-! ## Data accessor -/

/-- Go `readData`. -/
def readData (p : pboStream) (entry : FileEntry) : Option (List Byte) × Option Error × pboStream :=
  match p.cache.bind (fun c => GoMap.get c entry.Filename) with
  | some buf => (some buf, none, p)
  | none =>
    match p.file.Seek (p.dataStart + entry.start) Whence.SeekStart with
    | (_, err, f1) =>
      if err.isSome then (none, err, { p with file := f1 })
      else
        match f1.Read (List.replicate entry.DataSize 0) with
        | (buf, _, err, f2) =>
          if err.isSome then (some buf, err, { p with file := f2 })
          else
            (some buf, none,
              { p with file := f2, cache := p.cache.map (fun c => GoMap.set c entry.Filename buf) })

/-- Go `writeData`. -/
def writeData (p : pboStream) (b : List Byte) : WriteResult :=
  match p.file.Write b with
  | (_, err, f1) =>
    if err.isSome then WriteResult.ret err { p with file := f1 }
    else
      match p.hasher with
      | none => WriteResult.panic { p with file := f1 }
      | some h => WriteResult.ret none { p with file := f1, hasher := some (h.Write b) }

/-- Go `writeHash`. -/
def writeHash (p : pboStream) : WriteResult :=
  match p.hasher with
  | none => WriteResult.panic p
  | some h =>
    match p.file.Write ((0 : Byte) :: h.Sum) with
    | (_, err, f1) => WriteResult.ret err { p with file := f1 }

/-! ## Validator -/

/-- Go `validateProductEntry`. -/
def validateProductEntry (d : Decls) (p : pboStream) : Option Error × pboStream :=
  match p.file.Seek 0 Whence.SeekStart with
  | (_, err, f1) =>
    if err.isSome then (err, { p with file := f1 })
    else
      match readFileEntry d { p with file := f1 } none with
      | (entry, err, p2) =>
        if err.isSome then (err, p2)
        else if IsProductEntry d entry = false then (some Error.ErrInvalidProductEntry, p2)
        else (none, p2)

/-- The re-hashing loop of `validateFile`. -/
def validateFileLoop : Nat → pboStream → List Byte → Hash → Int → Int →
    Option Error × Hash × pboStream
  | 0, p, _, hasher, _, _ => (none, hasher, p)
  | fuel + 1, p, buf, hasher, currentPos, length =>
    if currentPos < length then
      let buf :=
        if currentPos + (bufferLength : Int) > length then
          List.replicate (length - currentPos).toNat (0 : Byte)
        else buf
      match p.file.Read buf with
      | (buf1, _, err, f1) =>
        if err.isSome then (err, hasher, { p with file := f1 })
        else
          validateFileLoop fuel { p with file := f1 } buf1 (hasher.Write buf1)
            (currentPos + (bufferLength : Int)) length
    else (none, hasher, p)

/-- The first part of `validateFile`, up to `calculatedHash`: returns the
error that makes the function return early (if any), `currentHash`,
`calculatedHash` and the stream. -/
def validateFileHashes (p : pboStream) :
    Option Error × List Byte × List Byte × pboStream :=
  match p.file.Seek (-20) Whence.SeekEnd with
  | (length, err, f1) =>
    if err.isSome then (err, [], [], { p with file := f1 })
    else
      let length := length - 1
      match f1.Read (List.replicate 20 0) with
      | (currentHash, _, err, f2) =>
        if err.isSome then (err, currentHash, [], { p with file := f2 })
        else
          match f2.Seek 0 Whence.SeekStart with
          | (_, err, f3) =>
            if err.isSome then (err, currentHash, [], { p with file := f3 })
            else
              match validateFileLoop (length.toNat + 1) { p with file := f3 }
                  (List.replicate bufferLength 0) sha1New 0 length with
              | (err, hasher, p4) =>
                if err.isSome then (err, currentHash, [], p4)
                else (none, currentHash, hasher.Sum, p4)

/-- Go `validateFile`. After the hashes are compared `err` holds
`ErrFileCorrupted` on a mismatch, and the next statement assigns the result of
`validateProductEntry` to the same `err`, which is what is returned. -/
def validateFile (d : Decls) (p : pboStream) : Option Error × pboStream :=
  match validateFileHashes p with
  | (err, currentHash, calculatedHash, p1) =>
    if err.isSome then (err, p1)
    else
      let _err : Option Error :=
        if currentHash ≠ calculatedHash then some Error.ErrFileCorrupted else none
      match validateProductEntry d p1 with
      | (err, p2) => (err, p2)

/-! ## Definitions used to state the properties -/

/-- The bytes from the cursor to the end of the file. -/
def pboStream.rest (p : pboStream) : List Byte := p.file.data.drop p.file.pos

/-- The stream with its cursor moved `n` bytes forward. -/
def pboStream.advance (p : pboStream) (n : Nat) : pboStream :=
  { p with file := { p.file with pos := p.file.pos + n } }

/-- The codes `readPackingMethod` accepts. -/
def Decls.recognised (d : Decls) (c : Nat) : Prop :=
  c = d.PackingMethodUncompressed ∨ c = d.PackingMethodPacked ∨ c = d.PackingMethodProductEntry

instance (d : Decls) (c : Nat) : Decidable (d.recognised c) := by
  unfold Decls.recognised
  infer_instance

/-- The file content after `b` is written at offset `pos`. -/
def spliceAt (data : List Byte) (pos : Nat) (b : List Byte) : List Byte :=
  data.take pos ++ List.replicate (pos - data.length) 0 ++ b ++ data.drop (pos + b.length)

/-- The stream after a successful write of `b`: the file holds `b` at the old
cursor, the cursor stands behind it, and an installed hasher has been fed `b`. -/
def pboStream.wrote (p : pboStream) (b : List Byte) : pboStream :=
  { p with
    file := { p.file with data := spliceAt p.file.data p.file.pos b, pos := p.file.pos + b.length }
    hasher := p.hasher.map (fun h => h.Write b) }

/-- The bytes of one FileEntry record on the wire: the filename, a zero byte,
then packing code, originalSize, reserved, timestamp and dataSize as
little-endian 32-bit integers. -/
def encodeFileEntry (e : FileEntry) : List Byte :=
  e.Filename ++ [0] ++ lePutUint32 (e.Packing % 2 ^ 32) ++ lePutUint32 e.OriginalSize
    ++ lePutUint32 e.Reserved ++ lePutUint32 (toUint32 e.Timestamp.Unix)
    ++ lePutUint32 e.DataSize

/-- An entry the wire format can hold: no zero byte in the filename, a
recognised packing code, 32-bit sizes, and a timestamp that is a whole number
of seconds in `[0, 2 ^ 32)`. -/
def FileEntry.Storable (d : Decls) (e : FileEntry) : Prop :=
  (∀ x ∈ e.Filename, x ≠ 0) ∧ d.recognised e.Packing ∧ e.OriginalSize < 2 ^ 32
    ∧ e.Reserved < 2 ^ 32 ∧ e.Timestamp.nsec = 0 ∧ 0 ≤ e.Timestamp.sec
    ∧ e.Timestamp.sec < 2 ^ 32 ∧ e.DataSize < 2 ^ 32

/-- Entries whose `start` fields are the running sum of the preceding
`DataSize` fields, counted from `s`. -/
def OffsetsFrom : Int → List FileEntry → Prop
  | _, [] => True
  | s, e :: es => e.start = s ∧ OffsetsFrom (s + (e.DataSize : Int)) es

/-- The records `rs` as `readFileEntries` returns them: each with `start` set
to the running offset, which then advances by the record's `DataSize`. -/
def assignStarts (parent : Option Nat) : Int → List FileEntry → List FileEntry
  | _, [] => []
  | s, r :: rs =>
    { r with start := s, parent := parent } :: assignStarts parent (s + (r.DataSize : Int)) rs

/-- The wire bytes of a sequence of records, one after the other. -/
def encodeFileEntries : List FileEntry → List Byte
  | [] => []
  | r :: rs => encodeFileEntry r ++ encodeFileEntries rs

/-- The terminator as decoded: empty filename, every numeric field zero. -/
def sentinelEntry (parent : Option Nat) : FileEntry :=
  { Filename := [], Packing := 0, OriginalSize := 0, Reserved := 0, Timestamp := Time.ofUnix 0,
    DataSize := 0, start := 0, parent := parent }

/-- The wire bytes of header pairs in the given order: key, zero byte, value,
zero byte, for each pair. -/
def encodeHeaders : List (List Byte × List Byte) → List Byte
  | [] => []
  | kv :: rest => kv.1 ++ [0] ++ kv.2 ++ [0] ++ encodeHeaders rest


/-- One call of a write method of the stream. -/
inductive WriteOp
  | writeString (s : List Byte)
  | writeUInt32 (val : Nat)
  | writePackingMethod (pack : Nat)
  | writeTimestamp (t : Time)
  | writeFileEntry (entry : FileEntry)
  | writeFileEntries (entries : List FileEntry)
  | writeHeader (key value : List Byte)
  | writeHeaders (headers : List (List Byte × List Byte))
  | writeData (b : List Byte)

/-- Performs the call on the stream. -/
def WriteOp.run (p : pboStream) : WriteOp → WriteResult
  | WriteOp.writeString s => Pbo.writeString p s
  | WriteOp.writeUInt32 val => Pbo.writeUInt32 p val
  | WriteOp.writePackingMethod pack => Pbo.writePackingMethod p pack
  | WriteOp.writeTimestamp t => Pbo.writeTimestamp p t
  | WriteOp.writeFileEntry entry => Pbo.writeFileEntry p entry
  | WriteOp.writeFileEntries entries => Pbo.writeFileEntries p entries
  | WriteOp.writeHeader key value => Pbo.writeHeader p key value
  | WriteOp.writeHeaders headers => Pbo.writeHeaders p headers
  | WriteOp.writeData b => Pbo.writeData p b

/-- A sequence of calls, each made when the one before returned no error. -/
def runWrites : pboStream → List WriteOp → WriteResult
  | p, [] => WriteResult.ret none p
  | p, op :: ops =>
    match op.run p with
    | WriteResult.ret none p1 => runWrites p1 ops
    | other => other

/-- The hasher has been fed exactly the bytes of the file, and the cursor
stands at the end of the file, which is open for writing. -/
def Tracked (p : pboStream) : Prop :=
  p.hasher = some ⟨p.file.data⟩ ∧ p.file.pos = p.file.data.length ∧ p.file.writable = true

/-- A write method that keeps `Tracked` whenever it returns without error. -/
def KeepsTracked (f : pboStream → WriteResult) : Prop :=
  ∀ p p1, Tracked p → f p = WriteResult.ret none p1 → Tracked p1


/-- The stream `openPBO` returns for a file with the given bytes. -/
def opened (data : List Byte) : pboStream := ⟨0, none, none, ⟨data, 0, false⟩⟩

/-- The stream `createPBO` returns. -/
def created : pboStream := ⟨0, none, some sha1New, ⟨[], 0, true⟩⟩

/-- A product-entry record: empty filename, code "Vers", four zero fields. -/
def productRecord : List Byte :=
  [0, 0x73, 0x72, 0x65, 0x56, 0, 0, 0, 0, 0, 0, 0, 0, 0, 0, 0, 0, 0, 0, 0, 0]

/-- The product entry as `readFileEntry` decodes it. -/
def productEntry : FileEntry :=
  { Filename := [], Packing := 0x56657273, OriginalSize := 0, Reserved := 0,
    Timestamp := Time.ofUnix 0, DataSize := 0, start := 0, parent := none }

/-- A valid archive: the product record, one content byte `A`, the zero marker
and the SHA-1 digest of the 22 bytes before the marker. -/
def goodArchive : List Byte :=
  productRecord ++ [65] ++ [0] ++
    [67, 124, 83, 164, 38, 147, 241, 233, 5, 148, 204, 145, 7, 111, 171, 174, 177, 108, 120, 236]

/-- The archive `goodArchive` with its content byte at offset 21 changed from
`A` to `B`; the footer is untouched. -/
def corruptedArchive : List Byte :=
  productRecord ++ [66] ++ [0] ++
    [67, 124, 83, 164, 38, 147, 241, 233, 5, 148, 204, 145, 7, 111, 171, 174, 177, 108, 120, 236]

/-- An Uncompressed record named "a" with zero fields. -/
def plainRecord : List Byte :=
  [97, 0, 0, 0, 0, 0, 0, 0, 0, 0, 0, 0, 0, 0, 0, 0, 0, 0, 0, 0, 0, 0]

/-- The record `plainRecord` as `readFileEntry` decodes it. -/
def plainEntry : FileEntry :=
  { Filename := [97], Packing := 0, OriginalSize := 0, Reserved := 0,
    Timestamp := Time.ofUnix 0, DataSize := 0, start := 0, parent := none }

/-- An archive with a correct footer whose first record is Uncompressed. -/
def unmarkedArchive : List Byte :=
  plainRecord ++ [0] ++
    [35, 92, 13, 196, 247, 64, 36, 30, 94, 197, 228, 81, 86, 26, 128, 145, 87, 56, 56, 46]

/-- A sample entry: "a.txt", Uncompressed, five bytes of data. -/
def entryA : FileEntry :=
  { Filename := [97, 46, 116, 120, 116], Packing := 0, OriginalSize := 5, Reserved := 0,
    Timestamp := ⟨1700000000, 0⟩, DataSize := 5, start := 0, parent := none }

/-- A sample entry: "b.txt", Packed, three bytes of data. -/
def entryB : FileEntry :=
  { Filename := [98, 46, 116, 120, 116], Packing := 0x43707273, OriginalSize := 9, Reserved := 7,
    Timestamp := ⟨1700000001, 0⟩, DataSize := 3, start := 0, parent := none }

/-- An entry table on disk: `entryA`, `entryB`, the terminator, then the
payload bytes "helloabc". -/
def sampleTable : List Byte :=
  encodeFileEntry entryA ++ encodeFileEntry entryB ++ List.replicate 21 0
    ++ [104, 101, 108, 108, 111, 97, 98, 99]

/-- A header section on disk: b=2, a=1, the terminator, then one more byte. -/
def sampleHeaders : List Byte := [98, 0, 50, 0, 97, 0, 49, 0, 0, 7]

/-- The entries `readFileEntries` returns for `sampleTable`. -/
def sampleEntries : List FileEntry := [entryA, { entryB with start := 5 }]

/-- A sequence of write calls. -/
def sampleOps : List WriteOp :=
  [WriteOp.writeString [97], WriteOp.writeFileEntry entryA, WriteOp.writeData [104, 105]]

/-- The bytes `sampleOps` writes. -/
def sampleContent : List Byte := [97, 0] ++ encodeFileEntry entryA ++ [104, 105]

/-- The stream made by `createPBO` after `sampleOps`. -/
def sampleWritten : pboStream :=
  ⟨0, none, some ⟨sampleContent⟩, ⟨sampleContent, sampleContent.length, true⟩⟩

instance (d : Decls) (e : FileEntry) : Decidable (e.Storable d) := by
  unfold FileEntry.Storable
  infer_instance

/-! ## Further definitions: store calls, buffers, locality, samples -/

/-- A call on the backing store. -/
inductive StoreCall
  | seek (offset : Int) (whence : Whence)
  | read (n : Nat)
  deriving DecidableEq, Repr

/-- The method `readData` once more, returning next to its result the calls
it makes on the backing store, in order. -/
def readDataLogged (p : pboStream) (entry : FileEntry) :
    (Option (List Byte) × Option Error × pboStream) × List StoreCall :=
  match p.cache.bind (fun c => GoMap.get c entry.Filename) with
  | some buf => ((some buf, none, p), [])
  | none =>
    match p.file.Seek (p.dataStart + entry.start) Whence.SeekStart with
    | (_, err, f1) =>
      if err.isSome then
        ((none, err, { p with file := f1 }),
          [StoreCall.seek (p.dataStart + entry.start) Whence.SeekStart])
      else
        match f1.Read (List.replicate entry.DataSize 0) with
        | (buf, _, err, f2) =>
          if err.isSome then
            ((some buf, err, { p with file := f2 }),
              [StoreCall.seek (p.dataStart + entry.start) Whence.SeekStart,
                StoreCall.read entry.DataSize])
          else
            ((some buf, none,
              { p with file := f2
                       cache := p.cache.map (fun c => GoMap.set c entry.Filename buf) }),
              [StoreCall.seek (p.dataStart + entry.start) Whence.SeekStart,
                StoreCall.read entry.DataSize])

/-- An entry for three bytes of payload at the start of the data region. -/
def entryX : FileEntry :=
  { Filename := [120], Packing := 0, OriginalSize := 3, Reserved := 0,
    Timestamp := Time.ofUnix 0, DataSize := 3, start := 0, parent := none }

/-- An entry that claims five bytes of payload at the start of the data region. -/
def entryLong : FileEntry :=
  { Filename := [120], Packing := 0, OriginalSize := 5, Reserved := 0,
    Timestamp := Time.ofUnix 0, DataSize := 5, start := 0, parent := none }

/-- A stream like `opened data` but with an empty cache installed. -/
def openedCaching (data : List Byte) : pboStream := ⟨0, some [], none, ⟨data, 0, false⟩⟩

/-- An entry table cut off inside its second record: `entryA`, then two bytes
of a filename and the end of the file. -/
def truncatedTable : List Byte := encodeFileEntry entryA ++ [98, 46]

/-- The re-hashing loop of `validateFile` once more, returning the buffers it
passes to `hasher.Write`, in order. -/
def validateFileChunks : Nat → pboStream → List Byte → Int → Int → List (List Byte)
  | 0, _, _, _, _ => []
  | fuel + 1, p, buf, currentPos, length =>
    if currentPos < length then
      let buf :=
        if currentPos + (bufferLength : Int) > length then
          List.replicate (length - currentPos).toNat (0 : Byte)
        else buf
      match p.file.Read buf with
      | (buf1, _, err, f1) =>
        if err.isSome then []
        else
          buf1 :: validateFileChunks fuel { p with file := f1 } buf1
            (currentPos + (bufferLength : Int)) length
    else []

/-- A stream with a writable file and no hasher. -/
def bare : pboStream := ⟨0, none, none, ⟨[], 0, true⟩⟩

/-- A file of 8218 zero bytes: 8197 bytes of content and a 21-byte footer. -/
def longFile : List Byte := List.replicate 8218 0

/-- The same stream over a file with other bytes. -/
def swapData (p : pboStream) (data : List Byte) : pboStream :=
  { p with file := { p.file with data := data } }

/-- One step of `readFileEntry`: the field just read is stored in the entry;
an error returns at once, otherwise the remaining fields are read. -/
def andThenRead {α : Type} (r : α × Option Error × pboStream) (store : α → FileEntry)
    (next : FileEntry → pboStream → FileEntry × Option Error × pboStream) :
    FileEntry × Option Error × pboStream :=
  match r with
  | (x, err, q) => if err.isSome then (store x, err, q) else next (store x) q

/-- A reader that only moves the cursor forward and whose result depends only
on the bytes in front of the cursor it ends at: over a file with the same
first `k` bytes, a run that ends at or before `k` is the same run. -/
def LocalRead {α : Type} (R : pboStream → α × Option Error × pboStream) : Prop :=
  ∀ p : pboStream,
    (∃ n, (R p).2.2 = p.advance n)
    ∧ ∀ (data2 : List Byte) (k : Nat), (R p).2.2.file.pos ≤ k → k < p.file.data.length →
        data2.take k = p.file.data.take k →
        R (swapData p data2) = ((R p).1, (R p).2.1, swapData (R p).2.2 data2)

/-- A 21-byte file that is both a product record and a footer: its byte 0 is
the record's filename terminator and the footer's marker. -/
def tinyArchive : List Byte := productRecord

/-- The file `tinyArchive` with its byte at offset `length - 21 = 0` changed. -/
def tinyArchiveMarked : List Byte :=
  [1, 0x73, 0x72, 0x65, 0x56, 0, 0, 0, 0, 0, 0, 0, 0, 0, 0, 0, 0, 0, 0, 0, 0]

/-- The archive `goodArchive` with the marker byte 0xFF in place of 0x00. -/
def markedArchive : List Byte :=
  productRecord ++ [65] ++ [255] ++
    [67, 124, 83, 164, 38, 147, 241, 233, 5, 148, 204, 145, 7, 111, 171, 174, 177, 108, 120, 236]

/-- The loop of `readHeaders` with its rounds counted: the result the loop
returns within `fuel` rounds, and `none` when it has not returned by then. -/
def readHeadersRun : Nat → pboStream → List Byte → GoMap (List Byte) →
    Option (GoMap (List Byte) × Option Error × pboStream)
  | 0, _, _, _ => none
  | fuel + 1, p, b, headers =>
    match p.file.Read b with
    | (b1, _, err, f1) =>
      if err.isSome ∨ b1.getD 0 0 = 0 then some (headers, err, { p with file := f1 })
      else
        match f1.Seek (-1) Whence.SeekCurrent with
        | (_, err, f2) =>
          if err.isSome then some (headers, err, { p with file := f2 })
          else
            match readHeader { p with file := f2 } with
            | (key, value, err, p3) =>
              if err.isSome then some (headers, err, p3)
              else readHeadersRun fuel p3 b1 (GoMap.set headers key value)

/-! ## Codec lemmas -/

theorem leUint32_lePutUint32 (v : Nat) : leUint32 (lePutUint32 v) = v % 2 ^ 32 := by
  simp [leUint32, lePutUint32, Fin.ofNat]
  omega

theorem lePutUint32_length (v : Nat) : (lePutUint32 v).length = 4 := rfl

theorem rest_advance (p : pboStream) (n : Nat) : (p.advance n).rest = p.rest.drop n := by
  simp [pboStream.rest, pboStream.advance, List.drop_drop, Nat.add_comm]

theorem advance_advance (p : pboStream) (m n : Nat) :
    (p.advance m).advance n = p.advance (m + n) := by
  simp [pboStream.advance, Nat.add_assoc]

theorem advance_zero (p : pboStream) : p.advance 0 = p := by
  simp [pboStream.advance]

theorem read_one_cons (p : pboStream) (b0 x : Byte) (r : List Byte) (h : p.rest = x :: r) :
    p.file.Read [b0] = ([x], 1, none, (p.advance 1).file) := by
  unfold pboStream.rest at h
  simp [OsFile.Read, h, pboStream.advance]

theorem read_one_nil (p : pboStream) (b0 : Byte) (h : p.rest = []) :
    p.file.Read [b0] = ([b0], 0, some Error.EOF, p.file) := by
  unfold pboStream.rest at h
  simp [OsFile.Read, h]

theorem readStringLoop_zero (s t : List Byte) (hs : ∀ x ∈ s, x ≠ 0) :
    ∀ (fuel : Nat) (p : pboStream) (b0 : Byte) (buf : List Byte),
      p.rest = s ++ 0 :: t → s.length < fuel →
      readStringLoop fuel p [b0] buf = (buf ++ s, none, p.advance (s.length + 1)) := by
  induction s with
  | nil =>
    intro fuel p b0 buf hr hf
    cases fuel with
    | zero => omega
    | succ n =>
      simp only [List.nil_append] at hr
      simp [readStringLoop, read_one_cons p b0 0 t hr]
      rfl
  | cons x s ih =>
    intro fuel p b0 buf hr hf
    cases fuel with
    | zero => omega
    | succ n =>
      have hx : x ≠ 0 := hs x (by simp)
      have hr1 : (p.advance 1).rest = s ++ 0 :: t := by
        rw [rest_advance, hr]; simp
      have := ih (fun y hy => hs y (by simp [hy])) n (p.advance 1) x (buf ++ [x]) hr1
        (by simp at hf; omega)
      simp only [List.cons_append] at hr
      simp [readStringLoop, read_one_cons p b0 x _ hr, hx]
      have e : ({ p with file := (p.advance 1).file } : pboStream) = p.advance 1 := rfl
      rw [e, this, advance_advance]
      simp [Nat.add_comm]


theorem readStringLoop_eof (s : List Byte) (hs : ∀ x ∈ s, x ≠ 0) :
    ∀ (fuel : Nat) (p : pboStream) (b0 : Byte) (buf : List Byte),
      p.rest = s → s.length < fuel →
      readStringLoop fuel p [b0] buf = (buf ++ s, some Error.EOF, p.advance s.length) := by
  induction s with
  | nil =>
    intro fuel p b0 buf hr hf
    cases fuel with
    | zero => omega
    | succ n =>
      simp [readStringLoop, read_one_nil p b0 hr, advance_zero]
  | cons x s ih =>
    intro fuel p b0 buf hr hf
    cases fuel with
    | zero => omega
    | succ n =>
      have hx : x ≠ 0 := hs x (by simp)
      have hr1 : (p.advance 1).rest = s := by
        rw [rest_advance, hr]; simp
      have := ih (fun y hy => hs y (by simp [hy])) n (p.advance 1) x (buf ++ [x]) hr1
        (by simp at hf; omega)
      simp [readStringLoop, read_one_cons p b0 x _ hr, hx]
      have e : ({ p with file := (p.advance 1).file } : pboStream) = p.advance 1 := rfl
      rw [e, this, advance_advance]
      simp [Nat.add_comm]

theorem rest_length (p : pboStream) : p.rest.length = p.file.data.length - p.file.pos := by
  simp [pboStream.rest]

theorem readString_of_zero (p : pboStream) (s t : List Byte) (hs : ∀ x ∈ s, x ≠ 0)
    (hr : p.rest = s ++ 0 :: t) :
    readString p = (s, none, p.advance (s.length + 1)) := by
  have hl := rest_length p
  rw [hr] at hl
  simp at hl
  have := readStringLoop_zero s t hs (p.file.data.length - p.file.pos + 1) p 0 [] hr (by omega)
  simpa [readString] using this

theorem readString_of_eof (p : pboStream) (hs : ∀ x ∈ p.rest, x ≠ 0) :
    readString p = (p.rest, some Error.EOF, p.advance p.rest.length) := by
  have hl := rest_length p
  have := readStringLoop_eof p.rest hs (p.file.data.length - p.file.pos + 1) p 0 [] rfl
    (by omega)
  simpa [readString] using this

theorem split_at_zero (l : List Byte) (h : (0 : Byte) ∈ l) :
    ∃ t, l = l.takeWhile (fun x => decide (x ≠ 0)) ++ 0 :: t := by
  induction l with
  | nil => simp at h
  | cons x l ih =>
    by_cases hx : x = 0
    · subst hx
      exact ⟨l, by simp⟩
    · have hm : (0 : Byte) ∈ l := by
        rcases List.mem_cons.mp h with h1 | h1
        · exact absurd h1.symm hx
        · exact h1
      obtain ⟨t, ht⟩ := ih hm
      refine ⟨t, ?_⟩
      simp only [List.takeWhile_cons, hx, ne_eq, not_false_eq_true, decide_True, ite_true,
        List.cons_append]
      rw [← ht]

/-- C9. `readString` decoding: when the bytes from the cursor contain a zero
byte, `readString` returns the bytes before the first zero byte with no error
and leaves the cursor just behind that zero byte; when they contain none, it
returns all bytes from the cursor to the end of the file together with the
error `EOF`, the cursor at the end of what was read. -/
theorem readString_spec (p : pboStream) :
    readString p =
      if (0 : Byte) ∈ p.rest then
        (p.rest.takeWhile (fun x => decide (x ≠ 0)), none,
          p.advance ((p.rest.takeWhile (fun x => decide (x ≠ 0))).length + 1))
      else (p.rest, some Error.EOF, p.advance p.rest.length) := by
  by_cases h : (0 : Byte) ∈ p.rest
  · rw [if_pos h]
    obtain ⟨t, ht⟩ := split_at_zero p.rest h
    refine readString_of_zero p _ t ?_ ht
    intro x hx
    have := List.mem_takeWhile_imp hx
    simpa using this
  · rw [if_neg h]
    apply readString_of_eof
    intro x hx h0
    exact h (h0 ▸ hx)


theorem readFull_of_rest (p : pboStream) (bs t : List Byte) (hr : p.rest = bs ++ t) :
    p.file.ReadFull bs.length = (bs, none, (p.advance bs.length).file) := by
  unfold pboStream.rest at hr
  simp [OsFile.ReadFull, hr, pboStream.advance]

theorem readUInt32_of_rest (p : pboStream) (b0 b1 b2 b3 : Byte) (t : List Byte)
    (hr : p.rest = b0 :: b1 :: b2 :: b3 :: t) :
    readUInt32 p = (leUint32 [b0, b1, b2, b3], none, p.advance 4) := by
  have := readFull_of_rest p [b0, b1, b2, b3] t (by simpa using hr)
  simp only [List.length_cons, List.length_nil] at this
  simp [readUInt32, this]
  rfl

theorem readUInt32_of_put (p : pboStream) (v : Nat) (t : List Byte)
    (hr : p.rest = lePutUint32 v ++ t) :
    readUInt32 p = (v % 2 ^ 32, none, p.advance 4) := by
  have := readUInt32_of_rest p _ _ _ _ t hr
  rw [this]
  have h := leUint32_lePutUint32 v
  unfold lePutUint32 at h
  rw [h]

theorem readPackingMethod_of_rest (d : Decls) (p : pboStream) (b0 b1 b2 b3 : Byte)
    (t : List Byte) (hr : p.rest = b0 :: b1 :: b2 :: b3 :: t) :
    readPackingMethod d p =
      if d.recognised (leUint32 [b0, b1, b2, b3]) then
        (leUint32 [b0, b1, b2, b3], none, p.advance 4)
      else
        (d.PackingMethodUncompressed,
          some (Error.InvalidPackingMethod (leUint32 [b0, b1, b2, b3])), p.advance 4) := by
  simp only [readPackingMethod, readUInt32_of_rest p b0 b1 b2 b3 t hr, Decls.recognised]
  simp

theorem readFileEntry_bad_code (d : Decls) (p : pboStream) (parent : Option Nat)
    (name : List Byte) (b0 b1 b2 b3 : Byte) (t : List Byte)
    (hname : ∀ x ∈ name, x ≠ 0)
    (hr : p.rest = name ++ 0 :: b0 :: b1 :: b2 :: b3 :: t)
    (hc : ¬ d.recognised (leUint32 [b0, b1, b2, b3])) :
    readFileEntry d p parent =
      ({ FileEntry.new parent with
          Filename := name, Packing := d.PackingMethodUncompressed },
        some (Error.InvalidPackingMethod (leUint32 [b0, b1, b2, b3])),
        p.advance (name.length + 1 + 4)) := by
  have h1 := readString_of_zero p name _ hname hr
  have hr2 : (p.advance (name.length + 1)).rest = b0 :: b1 :: b2 :: b3 :: t := by
    rw [rest_advance, hr]; simp
  have h2 := readPackingMethod_of_rest d _ b0 b1 b2 b3 t hr2
  rw [if_neg hc] at h2
  simp [readFileEntry, h1, h2, advance_advance]


theorem spliceAt_spliceAt (data : List Byte) (pos : Nat) (b1 b2 : List Byte) :
    spliceAt (spliceAt data pos b1) (pos + b1.length) b2 = spliceAt data pos (b1 ++ b2) := by
  have hP : (data.take pos ++ List.replicate (pos - data.length) (0 : Byte)).length = pos := by
    simp; omega
  generalize hPd : data.take pos ++ List.replicate (pos - data.length) (0 : Byte) = P at hP
  have h1 : spliceAt data pos b1 = (P ++ b1) ++ data.drop (pos + b1.length) := by
    simp [spliceAt, ← hPd]
  have h2 : spliceAt data pos (b1 ++ b2) = (P ++ b1) ++ b2 ++ data.drop (pos + b1.length + b2.length) := by
    simp [spliceAt, ← hPd, Nat.add_assoc]
  rw [h2, h1]
  have hl : (P ++ b1).length = pos + b1.length := by simp [hP]
  unfold spliceAt
  rw [List.take_append_of_le_length (by omega), List.take_of_length_le (by omega)]
  rw [List.drop_append_eq_append_drop, List.drop_of_length_le (by omega : (P ++ b1).length ≤ _)]
  simp only [List.length_append, List.length_drop, hl, List.drop_drop, List.nil_append]
  have : pos + b1.length - (pos + b1.length + (data.length - (pos + b1.length))) = 0 := by omega
  rw [this]
  simp

theorem drop_spliceAt (data : List Byte) (pos : Nat) (b : List Byte) :
    (spliceAt data pos b).drop pos = b ++ data.drop (pos + b.length) := by
  have hP : (data.take pos ++ List.replicate (pos - data.length) (0 : Byte)).length = pos := by
    simp; omega
  unfold spliceAt
  rw [List.append_assoc, List.drop_append_eq_append_drop, List.drop_of_length_le (by omega)]
  simp [hP]

theorem wrote_wrote (p : pboStream) (b1 b2 : List Byte) :
    (p.wrote b1).wrote b2 = p.wrote (b1 ++ b2) := by
  cases h : p.hasher <;>
    simp [pboStream.wrote, spliceAt_spliceAt, Nat.add_assoc, h, Hash.Write]

theorem osWrite_ok (f : OsFile) (b : List Byte) (hw : f.writable = true) (hb : b ≠ []) :
    f.Write b = (b.length, none,
      { f with data := spliceAt f.data f.pos b, pos := f.pos + b.length }) := by
  have : b.length ≠ 0 := by simpa using hb
  simp [OsFile.Write, hw, this, spliceAt]

theorem writeString_ok (p : pboStream) (s : List Byte) (h : Hash) (hh : p.hasher = some h)
    (hw : p.file.writable = true) :
    writeString p s = WriteResult.ret none (p.wrote (s ++ [0])) := by
  simp [writeString, osWrite_ok p.file (s ++ [0]) hw (by simp), hh, pboStream.wrote]

theorem writeUInt32_ok (p : pboStream) (v : Nat) (h : Hash) (hh : p.hasher = some h)
    (hw : p.file.writable = true) :
    writeUInt32 p v = WriteResult.ret none (p.wrote (lePutUint32 v)) := by
  simp [writeUInt32, osWrite_ok p.file (lePutUint32 v) hw (by simp [lePutUint32]), hh,
    pboStream.wrote]

theorem wrote_hasher (p : pboStream) (b : List Byte) (h : Hash) (hh : p.hasher = some h) :
    (p.wrote b).hasher = some (h.Write b) := by
  simp [pboStream.wrote, hh]

theorem wrote_writable (p : pboStream) (b : List Byte) :
    (p.wrote b).file.writable = p.file.writable := rfl

theorem writeFileEntry_ok (p : pboStream) (e : FileEntry) (h : Hash) (hh : p.hasher = some h)
    (hw : p.file.writable = true) :
    writeFileEntry p e = WriteResult.ret none (p.wrote (encodeFileEntry e)) := by
  unfold writeFileEntry writePackingMethod writeTimestamp
  rw [writeString_ok p _ h hh hw]
  simp only [WriteResult.andThen]
  rw [writeUInt32_ok _ _ _ (wrote_hasher p _ h hh) hw, wrote_wrote]
  simp only [WriteResult.andThen]
  rw [writeUInt32_ok _ _ _ (wrote_hasher p _ h hh) hw, wrote_wrote]
  simp only [WriteResult.andThen]
  rw [writeUInt32_ok _ _ _ (wrote_hasher p _ h hh) hw, wrote_wrote]
  simp only [WriteResult.andThen]
  rw [writeUInt32_ok _ _ _ (wrote_hasher p _ h hh) hw, wrote_wrote]
  simp only [WriteResult.andThen]
  rw [writeUInt32_ok _ _ _ (wrote_hasher p _ h hh) hw, wrote_wrote]
  simp [encodeFileEntry]


theorem recognised_lt (d : Decls) (c : Nat) (h : d.recognised c) : c < 2 ^ 32 := by
  rcases h with h | h | h
  · rw [h]; exact d.uncompressed_lt
  · rw [h]; exact d.packed_lt
  · rw [h]; exact d.productEntry_lt

theorem readPackingMethod_of_put (d : Decls) (p : pboStream) (c : Nat) (t : List Byte)
    (hc : d.recognised c) (hr : p.rest = lePutUint32 (c % 2 ^ 32) ++ t) :
    readPackingMethod d p = (c, none, p.advance 4) := by
  have hlt := recognised_lt d c hc
  have h := readUInt32_of_put p _ t hr
  rw [Nat.mod_mod, Nat.mod_eq_of_lt hlt] at h
  unfold Decls.recognised at hc
  simp [readPackingMethod, h, hc]

theorem toUint32_of_range (x : Int) (h0 : 0 ≤ x) (h1 : x < 2 ^ 32) :
    ((toUint32 x : Nat) : Int) = x := by
  unfold toUint32
  rw [Int.emod_eq_of_lt h0 h1]
  exact Int.toNat_of_nonneg h0

theorem toUint32_lt (x : Int) : toUint32 x < 2 ^ 32 := by
  unfold toUint32
  have h1 : x % 2 ^ 32 < 2 ^ 32 := Int.emod_lt_of_pos x (by norm_num)
  have h0 : 0 ≤ x % 2 ^ 32 := Int.emod_nonneg x (by norm_num)
  omega

theorem readTimestamp_of_put (p : pboStream) (ts : Time) (t : List Byte)
    (hn : ts.nsec = 0) (h0 : 0 ≤ ts.sec) (h1 : ts.sec < 2 ^ 32)
    (hr : p.rest = lePutUint32 (toUint32 ts.Unix) ++ t) :
    readTimestamp p = (ts, none, p.advance 4) := by
  have h := readUInt32_of_put p _ t hr
  rw [Nat.mod_eq_of_lt (toUint32_lt _)] at h
  simp only [readTimestamp, h, Time.ofUnix, Time.Unix]
  rw [toUint32_of_range _ h0 h1]
  cases ts
  simp_all

theorem drop_lePutUint32 (v : Nat) (t : List Byte) : (lePutUint32 v ++ t).drop 4 = t := rfl

theorem encodeFileEntry_append (e : FileEntry) (t : List Byte) :
    encodeFileEntry e ++ t =
      e.Filename ++ 0 :: (lePutUint32 (e.Packing % 2 ^ 32) ++ (lePutUint32 e.OriginalSize
        ++ (lePutUint32 e.Reserved ++ (lePutUint32 (toUint32 e.Timestamp.Unix)
        ++ (lePutUint32 e.DataSize ++ t))))) := by
  simp only [encodeFileEntry, List.append_assoc, List.singleton_append, List.cons_append, List.nil_append]

theorem encodeFileEntry_length (e : FileEntry) :
    (encodeFileEntry e).length = e.Filename.length + 21 := by
  simp only [encodeFileEntry, List.length_append, lePutUint32_length, List.length_singleton]

theorem readFileEntry_of_encode (d : Decls) (p : pboStream) (parent : Option Nat)
    (e : FileEntry) (t : List Byte) (hs : e.Storable d)
    (hr : p.rest = encodeFileEntry e ++ t) :
    readFileEntry d p parent =
      ({ e with start := 0, parent := parent }, none, p.advance (e.Filename.length + 21)) := by
  obtain ⟨hname, hpack, hosz, hres, hn, h0, h1, hdsz⟩ := hs
  rw [encodeFileEntry_append] at hr
  have e1 := readString_of_zero p e.Filename _ hname hr
  have r1 := rest_advance p (e.Filename.length + 1)
  rw [hr, List.drop_append_eq_append_drop, List.drop_of_length_le (by omega)] at r1
  simp only [List.nil_append, Nat.add_sub_cancel_left, List.drop_succ_cons, List.drop_zero]
    at r1
  have e2 := readPackingMethod_of_put d _ _ _ hpack r1
  have r2 := rest_advance (p.advance (e.Filename.length + 1)) 4
  rw [r1, drop_lePutUint32] at r2
  have e3 := readUInt32_of_put _ _ _ r2
  have r3 := rest_advance ((p.advance (e.Filename.length + 1)).advance 4) 4
  rw [r2, drop_lePutUint32] at r3
  have e4 := readUInt32_of_put _ _ _ r3
  have r4 := rest_advance (((p.advance (e.Filename.length + 1)).advance 4).advance 4) 4
  rw [r3, drop_lePutUint32] at r4
  have e5 := readTimestamp_of_put _ _ _ hn h0 h1 r4
  have r5 := rest_advance
    ((((p.advance (e.Filename.length + 1)).advance 4).advance 4).advance 4) 4
  rw [r4, drop_lePutUint32] at r5
  have e6 := readUInt32_of_put _ _ _ r5
  rw [Nat.mod_eq_of_lt hosz] at e3
  rw [Nat.mod_eq_of_lt hres] at e4
  rw [Nat.mod_eq_of_lt hdsz] at e6
  simp only [advance_advance] at e2 e3 e4 e5 e6
  unfold readFileEntry
  rw [e1]
  dsimp only [Option.isSome]
  rw [if_neg (by decide), e2]
  dsimp only [Option.isSome]
  rw [if_neg (by decide), e3]
  dsimp only [Option.isSome]
  rw [if_neg (by decide), e4]
  dsimp only [Option.isSome]
  rw [if_neg (by decide), e5]
  dsimp only [Option.isSome]
  rw [if_neg (by decide), e6]
  rfl


theorem seek_start (f : OsFile) (n : Nat) :
    f.Seek (n : Int) Whence.SeekStart = ((n : Int), none, { f with pos := n }) := by
  simp [OsFile.Seek]

/-- C1. FileEntry round trip: on a stream with an installed hasher and a
writable file, for an entry whose filename has no zero byte (it may even be
empty), whose packing code is recognised, whose three sizes are 32-bit and
whose timestamp is a whole number of seconds in `[0, 2 ^ 32)`, `writeFileEntry`
succeeds, moves the cursor by `len(filename) + 1 + 20`, and `readFileEntry`
from the offset where the write began returns the same filename, packing code,
originalSize, reserved, timestamp and dataSize with no error, the cursor once
more at the end of the written record. -/
theorem writeFileEntry_readFileEntry (d : Decls) (p : pboStream) (h : Hash) (e : FileEntry)
    (parent : Option Nat) (hh : p.hasher = some h) (hw : p.file.writable = true)
    (hname : ∀ x ∈ e.Filename, x ≠ 0) (hpack : d.recognised e.Packing)
    (hosz : e.OriginalSize < 2 ^ 32) (hres : e.Reserved < 2 ^ 32) (hdsz : e.DataSize < 2 ^ 32)
    (hnsec : e.Timestamp.nsec = 0) (hsec0 : 0 ≤ e.Timestamp.sec)
    (hsec1 : e.Timestamp.sec < 2 ^ 32) :
    ∃ p1 : pboStream,
      writeFileEntry p e = WriteResult.ret none p1
      ∧ p1.file.pos = p.file.pos + (e.Filename.length + 1 + 20)
      ∧ readFileEntry d
          { p1 with file := (p1.file.Seek (p.file.pos : Int) Whence.SeekStart).2.2 } parent
        = ({ e with start := 0, parent := parent }, none, p1) := by
  refine ⟨p.wrote (encodeFileEntry e), writeFileEntry_ok p e h hh hw, ?_, ?_⟩
  · simp [pboStream.wrote, encodeFileEntry_length]
  · rw [seek_start]
    have hr : ({ p.wrote (encodeFileEntry e) with
          file := { (p.wrote (encodeFileEntry e)).file with pos := p.file.pos } }
          : pboStream).rest
        = encodeFileEntry e ++ p.file.data.drop (p.file.pos + (encodeFileEntry e).length) := by
      simp [pboStream.rest, pboStream.wrote, drop_spliceAt]
    rw [readFileEntry_of_encode d _ parent e _
      ⟨hname, hpack, hosz, hres, hnsec, hsec0, hsec1, hdsz⟩ hr]
    simp [pboStream.advance, pboStream.wrote, encodeFileEntry_length]

theorem readFileEntriesLoop_offsets (d : Decls) (parent : Option Nat) :
    ∀ (fuel : Nat) (p : pboStream) (start : Int) (acc : List FileEntry),
      ∃ new, (readFileEntriesLoop d parent fuel p start acc).1 = acc ++ new
        ∧ OffsetsFrom start new := by
  intro fuel
  induction fuel with
  | zero => intro p start acc; exact ⟨[], by simp [readFileEntriesLoop], trivial⟩
  | succ n ih =>
    intro p start acc
    unfold readFileEntriesLoop
    rcases hrd : readFileEntry d p parent with ⟨entry, err, p1⟩
    dsimp only
    by_cases he : err.isSome = true
    · rw [if_pos he]; exact ⟨[], by simp, trivial⟩
    · rw [if_neg he]
      by_cases hemp : d.IsEmpty entry = true
      · rw [if_pos hemp]; exact ⟨[], by simp, trivial⟩
      · rw [if_neg hemp]
        obtain ⟨new, h1, h2⟩ := ih p1 (start + (entry.DataSize : Int))
          (acc ++ [{ entry with start := start }])
        exact ⟨{ entry with start := start } :: new, by simp [h1], rfl, h2⟩

theorem offsetsFrom_get (es : List FileEntry) :
    ∀ (s : Int), OffsetsFrom s es → ∀ (k : Nat) (hk : k < es.length),
      es[k].start = s + ((es.take k).map (fun e => (e.DataSize : Int))).sum := by
  induction es with
  | nil => intro s _ k hk; simp at hk
  | cons e es ih =>
    intro s h k hk
    cases k with
    | zero => simp [h.1]
    | succ k =>
      have := ih _ h.2 k (by simpa using hk)
      simp [this]
      omega

/-- C3. Offset invariant: when `readFileEntries` succeeds with entries `es`,
the `start` of the entry at index `k` is the (unbounded integer) sum of the
`DataSize` fields of the entries before it; so the first `start` is 0. -/
theorem readFileEntries_offsets (d : Decls) (p p1 : pboStream) (parent : Option Nat)
    (es : List FileEntry) (hread : readFileEntries d p parent = (es, none, p1))
    (k : Nat) (hk : k < es.length) :
    (es.get ⟨k, hk⟩).start = ((es.take k).map (fun e => (e.DataSize : Int))).sum := by
  obtain ⟨new, h1, h2⟩ := readFileEntriesLoop_offsets d parent
    (p.file.data.length - p.file.pos + 1) p 0 []
  have hes : es = new := by
    have := congrArg Prod.fst hread
    simp only [readFileEntries] at this
    rw [← this, h1]; simp
  subst hes
  simpa using offsetsFrom_get es 0 h2 k hk


theorem encode_sentinelEntry (parent : Option Nat) :
    encodeFileEntry (sentinelEntry parent) = List.replicate 21 0 := by
  simp only [encodeFileEntry, sentinelEntry]
  decide

theorem sentinelEntry_storable (d : Decls) (parent : Option Nat) (hz : d.recognised 0) :
    (sentinelEntry parent).Storable d := by
  refine ⟨?_, hz, ?_, ?_, rfl, ?_, ?_, ?_⟩ <;> simp [sentinelEntry, Time.ofUnix]

theorem length_le_encodeFileEntries (rs : List FileEntry) :
    rs.length ≤ (encodeFileEntries rs).length := by
  induction rs with
  | nil => simp
  | cons r rs ih =>
    simp only [encodeFileEntries, List.length_cons, List.length_append, encodeFileEntry_length]
    omega

theorem readFileEntriesLoop_records (d : Decls) (parent : Option Nat) (t : List Byte)
    (hz : d.recognised 0) (hsent : d.IsEmpty (sentinelEntry parent) = true) :
    ∀ (rs : List FileEntry) (fuel : Nat) (p : pboStream) (start : Int) (acc : List FileEntry),
      (∀ r ∈ rs, r.Storable d ∧ d.IsEmpty { r with start := 0, parent := parent } = false) →
      p.rest = encodeFileEntries rs ++ (List.replicate 21 0 ++ t) →
      rs.length < fuel →
      readFileEntriesLoop d parent fuel p start acc =
        (acc ++ assignStarts parent start rs, none,
          p.advance ((encodeFileEntries rs).length + 21)) := by
  intro rs
  induction rs with
  | nil =>
    intro fuel p start acc _ hr hf
    cases fuel with
    | zero => omega
    | succ n =>
      rw [← encode_sentinelEntry parent] at hr
      have h := readFileEntry_of_encode d p parent (sentinelEntry parent) t
        (sentinelEntry_storable d parent hz) (by simpa [encodeFileEntries] using hr)
      unfold readFileEntriesLoop
      rw [h]
      have hs : ({ sentinelEntry parent with start := 0, parent := parent } : FileEntry)
          = sentinelEntry parent := rfl
      have hsent1 := hsent
      unfold sentinelEntry at hsent1
      simp [hsent1, assignStarts, encodeFileEntries, sentinelEntry]
  | cons r rs ih =>
    intro fuel p start acc hrs hr hf
    cases fuel with
    | zero => omega
    | succ n =>
      obtain ⟨hst, hne⟩ := hrs r (by simp)
      have h := readFileEntry_of_encode d p parent r
        (encodeFileEntries rs ++ (List.replicate 21 0 ++ t)) hst
        (by simpa [encodeFileEntries] using hr)
      have hr1 : (p.advance (r.Filename.length + 21)).rest
          = encodeFileEntries rs ++ (List.replicate 21 0 ++ t) := by
        rw [rest_advance, hr, ← encodeFileEntry_length]
        simp [encodeFileEntries]
      have := ih n (p.advance (r.Filename.length + 21)) (start + (r.DataSize : Int))
        (acc ++ [{ r with start := start, parent := parent }])
        (fun x hx => hrs x (by simp [hx])) hr1 (by simp at hf; omega)
      unfold readFileEntriesLoop
      rw [h]
      simp only [Option.isSome_none, Bool.false_eq_true, if_false, hne]
      rw [this, advance_advance]
      simp only [assignStarts, encodeFileEntries, encodeFileEntry_length, List.append_assoc,
        List.singleton_append, List.length_append]
      congr 2

/-- C4. Sentinel exclusion: when the bytes from the cursor are the encodings
of records `rs`, each storable and none of them empty, followed by the
all-zero 21-byte terminator record (which the package declarations decode and
take for empty) and any bytes `t`, `readFileEntries` succeeds, returns exactly
the records `rs` in order (with their running `start` offsets, the terminator
not among them), and leaves the cursor just behind the terminator: the bytes
left are `t`. -/
theorem readFileEntries_sentinel (d : Decls) (p : pboStream) (parent : Option Nat)
    (rs : List FileEntry) (t : List Byte)
    (hz : d.recognised 0) (hsent : d.IsEmpty (sentinelEntry parent) = true)
    (hrs : ∀ r ∈ rs, r.Storable d ∧ d.IsEmpty { r with start := 0, parent := parent } = false)
    (hr : p.rest = encodeFileEntries rs ++ List.replicate 21 0 ++ t) :
    readFileEntries d p parent =
        (assignStarts parent 0 rs, none, p.advance ((encodeFileEntries rs).length + 21))
      ∧ (p.advance ((encodeFileEntries rs).length + 21)).rest = t := by
  rw [List.append_assoc] at hr
  have hl := rest_length p
  have hle := length_le_encodeFileEntries rs
  constructor
  · have := readFileEntriesLoop_records d parent t hz hsent rs
      (p.file.data.length - p.file.pos + 1) p 0 [] hrs hr
      (by rw [hr] at hl; simp at hl; omega)
    simpa [readFileEntries] using this
  · rw [rest_advance, hr]
    simp


theorem lookup_set {V : Type} (m : GoMap V) (k1 : List Byte) (v1 : V) (k : List Byte) :
    List.lookup k (GoMap.set m k1 v1) = if k = k1 then some v1 else List.lookup k m := by
  induction m with
  | nil =>
    by_cases h : k = k1
    · subst h; simp [GoMap.set, List.lookup_cons]
    · have : (k == k1) = false := by simpa using h
      simp [GoMap.set, List.lookup_cons, this, h]
  | cons e m ih =>
    obtain ⟨a, b⟩ := e
    by_cases ha : a = k1
    · subst ha
      by_cases h : k = a
      · subst h; simp [GoMap.set, List.lookup_cons]
      · have : (k == a) = false := by simpa using h
        simp [GoMap.set, List.lookup_cons, this, h]
    · by_cases h : k = a
      · subst h
        simp [GoMap.set, List.lookup_cons, ha]
      · have : (k == a) = false := by simpa using h
        simp only [GoMap.set, if_neg ha, List.lookup_cons, this, ih]

theorem lookup_foldl_set (kvs : List (List Byte × List Byte)) :
    ∀ (m0 : GoMap (List Byte)), (kvs.map Prod.fst).Nodup → ∀ (k v : List Byte),
      List.lookup k (kvs.foldl (fun m kv => GoMap.set m kv.1 kv.2) m0) = some v ↔
        ((k, v) ∈ kvs ∨ (k ∉ kvs.map Prod.fst ∧ List.lookup k m0 = some v)) := by
  induction kvs with
  | nil => intro m0 _ k v; simp
  | cons kv kvs ih =>
    intro m0 hnd k v
    obtain ⟨k1, v1⟩ := kv
    simp only [List.map_cons, List.nodup_cons] at hnd
    rw [List.foldl_cons, ih _ hnd.2, lookup_set]
    by_cases hk : k = k1
    · subst hk
      have hnot : ∀ w, (k, w) ∉ kvs := fun w hw => hnd.1 (List.mem_map.mpr ⟨(k, w), hw, rfl⟩)
      simp [hnd.1, hnot]
      constructor
      · intro h; exact h.symm
      · intro h; exact h.symm
    · simp [hk]

theorem encodeHeaders_length_ge (kvs : List (List Byte × List Byte)) :
    kvs.length ≤ (encodeHeaders kvs).length := by
  induction kvs with
  | nil => simp
  | cons kv kvs ih =>
    simp only [encodeHeaders, List.length_cons, List.length_append, List.length_nil]
    omega

theorem seek_back_one (p : pboStream) :
    (p.advance 1).file.Seek (-1) Whence.SeekCurrent = ((p.file.pos : Int), none, p.file) := by
  simp [OsFile.Seek, pboStream.advance]

theorem readHeader_of_pair (p : pboStream) (k v t : List Byte)
    (hk : ∀ x ∈ k, x ≠ 0) (hv : ∀ x ∈ v, x ≠ 0) (hr : p.rest = k ++ 0 :: (v ++ 0 :: t)) :
    readHeader p = (k, v, none, p.advance (k.length + 1 + (v.length + 1))) := by
  have e1 := readString_of_zero p k _ hk hr
  have r1 : (p.advance (k.length + 1)).rest = v ++ 0 :: t := by
    rw [rest_advance, hr]; simp
  have e2 := readString_of_zero _ v _ hv r1
  simp [readHeader, e1, e2, advance_advance]

theorem readHeadersLoop_pairs (t : List Byte) :
    ∀ (kvs : List (List Byte × List Byte)) (fuel : Nat) (p : pboStream) (b0 : Byte)
      (m0 : GoMap (List Byte)),
      (∀ kv ∈ kvs, kv.1 ≠ [] ∧ (∀ x ∈ kv.1, x ≠ 0) ∧ (∀ x ∈ kv.2, x ≠ 0)) →
      p.rest = encodeHeaders kvs ++ 0 :: t →
      kvs.length < fuel →
      readHeadersLoop fuel p [b0] m0 =
        (kvs.foldl (fun m kv => GoMap.set m kv.1 kv.2) m0, none,
          p.advance ((encodeHeaders kvs).length + 1)) := by
  intro kvs
  induction kvs with
  | nil =>
    intro fuel p b0 m0 _ hr hf
    cases fuel with
    | zero => omega
    | succ n =>
      simp only [encodeHeaders, List.nil_append] at hr
      unfold readHeadersLoop
      rw [read_one_cons p b0 0 t hr]
      dsimp only
      rw [if_pos (show (none : Option Error).isSome = true ∨ ([0] : List Byte).getD 0 0 = 0
        from Or.inr rfl)]
      rfl
  | cons kv kvs ih =>
    intro fuel p b0 m0 hkvs hr hf
    cases fuel with
    | zero => omega
    | succ n =>
      obtain ⟨k, v⟩ := kv
      obtain ⟨hne, hk, hv⟩ := hkvs (k, v) (by simp)
      cases k with
      | nil => exact absurd rfl hne
      | cons x k =>
        have hx : x ≠ 0 := hk x (by simp)
        have hr0 : p.rest = (x :: k) ++ 0 :: (v ++ 0 :: (encodeHeaders kvs ++ 0 :: t)) := by
          rw [hr]; simp [encodeHeaders]
        have hrd := read_one_cons p b0 x _ (by simpa using hr0)
        have hh := readHeader_of_pair p (x :: k) v _ hk hv hr0
        have hr1 : (p.advance ((x :: k).length + 1 + (v.length + 1))).rest
            = encodeHeaders kvs ++ 0 :: t := by
          rw [rest_advance, hr0]
          have : (x :: k).length + 1 + (v.length + 1)
              = ((x :: k) ++ 0 :: (v ++ [0])).length := by simp; omega
          rw [this]
          have e : (x :: k) ++ 0 :: (v ++ 0 :: (encodeHeaders kvs ++ 0 :: t))
              = ((x :: k) ++ 0 :: (v ++ [0])) ++ (encodeHeaders kvs ++ 0 :: t) := by simp
          rw [e, List.drop_left]
        have := ih n (p.advance ((x :: k).length + 1 + (v.length + 1))) x
          (GoMap.set m0 (x :: k) v) (fun kv hkv => hkvs kv (by simp [hkv])) hr1
          (by simp at hf; omega)
        unfold readHeadersLoop
        rw [hrd]
        dsimp only
        rw [if_neg (show ¬ ((none : Option Error).isSome = true ∨ ([x] : List Byte).getD 0 0 = 0)
          from by simp [hx]), seek_back_one]
        have e : ({ p with file := p.file } : pboStream) = p := rfl
        rw [e, hh]
        dsimp only [Option.isSome]
        rw [if_neg (by decide), if_neg (by decide), this, advance_advance]
        simp only [List.foldl_cons, encodeHeaders, List.length_append, List.length_cons,
          List.length_nil]
        congr 3

/-- C8. Header round trip: when the bytes from the cursor are the pairs `kvs`
(distinct, non-empty keys, no zero byte in a key or value) written in any
order as key, 0, value, 0, followed by one zero byte and any bytes `t`,
`readHeaders` succeeds and returns a map holding exactly those pairs, a
statement that does not depend on the order of `kvs`, and the cursor is just
behind the terminator: the bytes left are `t`. -/
theorem readHeaders_roundtrip (p : pboStream) (kvs : List (List Byte × List Byte))
    (t : List Byte) (hnd : (kvs.map Prod.fst).Nodup)
    (hkvs : ∀ kv ∈ kvs, kv.1 ≠ [] ∧ (∀ x ∈ kv.1, x ≠ 0) ∧ (∀ x ∈ kv.2, x ≠ 0))
    (hr : p.rest = encodeHeaders kvs ++ 0 :: t) :
    ∃ m : GoMap (List Byte),
      readHeaders p = (m, none, p.advance ((encodeHeaders kvs).length + 1))
      ∧ (∀ k v, List.lookup k m = some v ↔ (k, v) ∈ kvs)
      ∧ (p.advance ((encodeHeaders kvs).length + 1)).rest = t := by
  have hl := rest_length p
  have hle := encodeHeaders_length_ge kvs
  refine ⟨kvs.foldl (fun m kv => GoMap.set m kv.1 kv.2) [], ?_, ?_, ?_⟩
  · have := readHeadersLoop_pairs t kvs (p.file.data.length - p.file.pos + 1) p 0 [] hkvs hr
      (by rw [hr] at hl; simp at hl; omega)
    simpa [readHeaders] using this
  · intro k v
    rw [lookup_foldl_set kvs [] hnd k v]
    simp
  · rw [rest_advance, hr]
    simp

/-! ## Validator lemmas -/

theorem osRead_full (f : OsFile) (b : List Byte) (hb : b.length ≠ 0)
    (hle : f.pos + b.length ≤ f.data.length) :
    f.Read b = ((f.data.drop f.pos).take b.length, b.length, none,
      { f with pos := f.pos + b.length }) := by
  have hl : ((f.data.drop f.pos).take b.length).length = b.length := by
    simp; omega
  unfold OsFile.Read
  dsimp only
  rw [if_neg hb, hl, if_neg hb, List.drop_of_length_le (Nat.le_refl _), List.append_nil]

theorem validateFileLoop_done (fuel : Nat) (p : pboStream) (buf : List Byte) (h : Hash)
    (cp len : Int) (hge : ¬ cp < len) :
    validateFileLoop fuel p buf h cp len = (none, h, p) := by
  cases fuel with
  | zero => rfl
  | succ n => rw [validateFileLoop, if_neg hge]

theorem validateFileLoop_spec :
    ∀ (fuel : Nat) (p : pboStream) (buf : List Byte) (h : Hash) (c len : Nat),
      p.file.pos = c → c ≤ len → len ≤ p.file.data.length → buf.length = bufferLength →
      len - c < fuel →
      validateFileLoop fuel p buf h (c : Int) (len : Int) =
        (none, ⟨h.written ++ (p.file.data.take len).drop c⟩,
          { p with file := { p.file with pos := len } }) := by
  intro fuel
  induction fuel with
  | zero => intro p buf h c len _ _ _ _ hf; omega
  | succ n ih =>
    intro p buf h c len hpos hc hlen hbuf hf
    by_cases hlt : c < len
    · have hlt1 : (c : Int) < (len : Int) := by exact_mod_cast hlt
      rw [validateFileLoop, if_pos hlt1]
      by_cases hlast : (c : Int) + (bufferLength : Int) > (len : Int)
      · -- the final, shorter chunk
        rw [if_pos hlast]
        have htn : ((len : Int) - (c : Int)).toNat = len - c := by omega
        have hrd := osRead_full p.file (List.replicate (len - c) (0 : Byte))
          (by simp; omega) (by simp; omega)
        simp only [List.length_replicate] at hrd
        dsimp only
        rw [htn, hrd]
        dsimp only [Option.isSome]
        rw [if_neg (by decide), validateFileLoop_done _ _ _ _ _ _ (by omega)]
        have e1 : (p.file.data.drop p.file.pos).take (len - c)
            = (p.file.data.take len).drop c := by
          rw [hpos, List.drop_take]
        have e2 : p.file.pos + (len - c) = len := by omega
        simp only [Hash.Write, e1, e2]
      · -- a full chunk
        rw [if_neg hlast]
        have hfull : c + bufferLength ≤ len := by
          have : (c : Int) + (bufferLength : Int) ≤ (len : Int) := by omega
          exact_mod_cast this
        have hbl : bufferLength ≠ 0 := by decide
        have hrd := osRead_full p.file buf (by rw [hbuf]; exact hbl) (by omega)
        rw [hbuf] at hrd
        dsimp only
        rw [hrd]
        dsimp only [Option.isSome]
        rw [if_neg (by decide)]
        have hcast : (c : Int) + (bufferLength : Int) = ((c + bufferLength : Nat) : Int) := by
          push_cast; rfl
        have hbuf1 : ((p.file.data.drop p.file.pos).take bufferLength).length = bufferLength := by
          simp; omega
        rw [hcast, ih { p with file := { p.file with pos := p.file.pos + bufferLength } }
          ((p.file.data.drop p.file.pos).take bufferLength)
          (h.Write ((p.file.data.drop p.file.pos).take bufferLength))
          (c + bufferLength) len (by simp [hpos]) hfull hlen hbuf1 (by omega)]
        have e : (p.file.data.drop p.file.pos).take bufferLength
            ++ (p.file.data.take len).drop (c + bufferLength)
            = (p.file.data.take len).drop c := by
          rw [hpos]
          have h1 : (p.file.data.drop c).take bufferLength
              = ((p.file.data.take len).drop c).take bufferLength := by
            rw [List.drop_take, List.take_take, Nat.min_eq_left (by omega)]
          have h2 : (p.file.data.take len).drop (c + bufferLength)
              = ((p.file.data.take len).drop c).drop bufferLength := by
            rw [List.drop_drop, Nat.add_comm]
          rw [h1, h2, List.take_append_drop]
        simp only [Hash.Write, List.append_assoc, e]
    · have hge : ¬ (c : Int) < (len : Int) := by omega
      rw [validateFileLoop_done _ _ _ _ _ _ hge]
      have hcl : c = len := by omega
      subst hcl
      have hp : ({ p with file := { p.file with pos := c } } : pboStream) = p := by
        rw [← hpos]
      cases h
      simp [hp]

theorem validateFileHashes_spec (p : pboStream) (h20 : 20 ≤ p.file.data.length) :
    validateFileHashes p =
      (none, p.file.data.drop (p.file.data.length - 20),
        SHA1.sum (p.file.data.take (p.file.data.length - 21)),
        { p with file := { p.file with pos := p.file.data.length - 21 } }) := by
  have hseek : p.file.Seek (-20) Whence.SeekEnd
      = (((p.file.data.length - 20 : Nat) : Int), none,
          { p.file with pos := p.file.data.length - 20 }) := by
    unfold OsFile.Seek
    dsimp only
    rw [if_neg (by omega)]
    have : (p.file.data.length : Int) + -20 = ((p.file.data.length - 20 : Nat) : Int) := by
      omega
    rw [this]
    simp
  have hrd := osRead_full { p.file with pos := p.file.data.length - 20 }
    (List.replicate 20 (0 : Byte)) (by simp) (by simp; omega)
  simp only [List.length_replicate] at hrd
  have hcur : (p.file.data.drop (p.file.data.length - 20)).take 20
      = p.file.data.drop (p.file.data.length - 20) := by
    apply List.take_of_length_le
    simp; omega
  rw [hcur] at hrd
  have hseek0 : ∀ f : OsFile, f.Seek 0 Whence.SeekStart = (0, none, { f with pos := 0 }) := by
    intro f; simp [OsFile.Seek]
  unfold validateFileHashes
  rw [hseek]
  dsimp only [Option.isSome]
  rw [if_neg (by decide), hrd]
  dsimp only [Option.isSome]
  rw [if_neg (by decide), hseek0]
  dsimp only [Option.isSome]
  rw [if_neg (by decide)]
  by_cases h21 : 21 ≤ p.file.data.length
  · have hlen : ((p.file.data.length - 20 : Nat) : Int) - 1
        = ((p.file.data.length - 21 : Nat) : Int) := by omega
    rw [hlen]
    have hloop := validateFileLoop_spec ((p.file.data.length - 21) + 1)
      { p with file := { p.file with pos := 0 } } (List.replicate bufferLength 0) sha1New 0
      (p.file.data.length - 21) rfl (Nat.zero_le _) (by simp) (by simp) (by omega)
    simp only [Int.toNat_ofNat]
    have hz : ((0 : Nat) : Int) = 0 := rfl
    rw [hz] at hloop
    rw [hloop]
    dsimp only [Option.isSome]
    rw [if_neg (by decide)]
    simp [Hash.Sum, sha1New]
  · have hL : p.file.data.length = 20 := by omega
    rw [validateFileLoop_done _ _ _ _ _ _ (by omega)]
    dsimp only [Option.isSome]
    rw [if_neg (by decide)]
    simp [Hash.Sum, sha1New, hL]

theorem validateFile_eq (d : Decls) (p : pboStream) (h20 : 20 ≤ p.file.data.length) :
    validateFile d p =
      validateProductEntry d { p with file := { p.file with pos := p.file.data.length - 21 } } := by
  unfold validateFile
  rw [validateFileHashes_spec p h20]
  dsimp only [Option.isSome]
  rw [if_neg (by decide)]

theorem validateProductEntry_eq (d : Decls) (p : pboStream) :
    validateProductEntry d p =
      (match readFileEntry d { p with file := { p.file with pos := 0 } } none with
        | (entry, err, p2) =>
          if err.isSome then (err, p2)
          else if IsProductEntry d entry = false then (some Error.ErrInvalidProductEntry, p2)
          else (none, p2)) := by
  have hseek0 : p.file.Seek 0 Whence.SeekStart = (0, none, { p.file with pos := 0 }) := by
    simp [OsFile.Seek]
  unfold validateProductEntry
  rw [hseek0]
  dsimp only [Option.isSome]
  rw [if_neg (by decide)]

/-! ## Write tracking -/

theorem writeData_tracked (b : List Byte) : KeepsTracked (fun p => writeData p b) := by
  intro p p1 ⟨hh, hpos, hw⟩ hret
  dsimp only at hret
  unfold writeData OsFile.Write at hret
  rw [if_neg (by simp [hw])] at hret
  by_cases hb : b.length = 0
  · rw [if_pos hb] at hret
    have hb0 : b = [] := List.length_eq_zero.mp hb
    simp only [Option.isSome_none, Bool.false_eq_true, if_false, hh] at hret
    injection hret with _ hp
    subst hp
    subst hb0
    exact ⟨by simp [Hash.Write], hpos, hw⟩
  · rw [if_neg hb] at hret
    simp only [Option.isSome_none, Bool.false_eq_true, if_false, hh] at hret
    injection hret with _ hp
    subst hp
    refine ⟨?_, ?_, hw⟩
    · simp [Hash.Write, hpos]
    · simp [hpos]

theorem writeString_tracked (s : List Byte) : KeepsTracked (fun p => writeString p s) :=
  writeData_tracked (s ++ [0])

theorem writeUInt32_tracked (v : Nat) : KeepsTracked (fun p => writeUInt32 p v) :=
  writeData_tracked (lePutUint32 v)

theorem andThen_tracked (f k : pboStream → WriteResult) (hf : KeepsTracked f)
    (hk : KeepsTracked k) : KeepsTracked (fun p => (f p).andThen k) := by
  intro p p1 hp hret
  dsimp only at hret
  cases hfp : f p with
  | panic q => rw [hfp] at hret; simp [WriteResult.andThen] at hret
  | ret err q =>
    rw [hfp] at hret
    cases err with
    | some e => simp [WriteResult.andThen] at hret
    | none => exact hk q p1 (hf p q hp hfp) hret

theorem writeFileEntry_tracked (e : FileEntry) : KeepsTracked (fun p => writeFileEntry p e) := by
  unfold writeFileEntry
  exact andThen_tracked _ _ (andThen_tracked _ _ (andThen_tracked _ _ (andThen_tracked _ _
    (andThen_tracked _ _ (writeString_tracked _) (writeUInt32_tracked _))
    (writeUInt32_tracked _)) (writeUInt32_tracked _)) (writeUInt32_tracked _))
    (writeUInt32_tracked _)

theorem writeHeader_tracked (k v : List Byte) : KeepsTracked (fun p => writeHeader p k v) :=
  andThen_tracked _ _ (writeString_tracked k) (writeString_tracked v)

theorem writeFileEntries_tracked (es : List FileEntry) :
    KeepsTracked (fun p => writeFileEntries p es) := by
  induction es with
  | nil =>
    intro p p1 hp hret
    simp only [writeFileEntries, WriteResult.ret.injEq, true_and] at hret
    exact hret ▸ hp
  | cons e es ih =>
    intro p p1 hp hret
    simp only [writeFileEntries] at hret
    cases hw : writeFileEntry p e with
    | panic q => rw [hw] at hret; simp at hret
    | ret err q =>
      rw [hw] at hret
      cases err with
      | some x => simp at hret
      | none => exact ih q p1 (writeFileEntry_tracked e p q hp hw) hret

theorem writeHeaders_tracked (kvs : List (List Byte × List Byte)) :
    KeepsTracked (fun p => writeHeaders p kvs) := by
  induction kvs with
  | nil =>
    intro p p1 hp hret
    simp only [writeHeaders, WriteResult.ret.injEq, true_and] at hret
    exact hret ▸ hp
  | cons kv kvs ih =>
    intro p p1 hp hret
    obtain ⟨k, v⟩ := kv
    simp only [writeHeaders] at hret
    cases hw : writeHeader p k v with
    | panic q => rw [hw] at hret; simp at hret
    | ret err q =>
      rw [hw] at hret
      cases err with
      | some x => simp at hret
      | none => exact ih q p1 (writeHeader_tracked k v p q hp hw) hret

theorem run_tracked (op : WriteOp) : KeepsTracked (fun p => op.run p) := by
  cases op with
  | writeString s => exact writeString_tracked s
  | writeUInt32 v => exact writeUInt32_tracked v
  | writePackingMethod pack => exact writeUInt32_tracked _
  | writeTimestamp t => exact writeUInt32_tracked _
  | writeFileEntry e => exact writeFileEntry_tracked e
  | writeFileEntries es => exact writeFileEntries_tracked es
  | writeHeader k v => exact writeHeader_tracked k v
  | writeHeaders kvs => exact writeHeaders_tracked kvs
  | writeData b => exact writeData_tracked b

theorem runWrites_tracked (ops : List WriteOp) : KeepsTracked (fun p => runWrites p ops) := by
  induction ops with
  | nil =>
    intro p p1 hp hret
    simp only [runWrites, WriteResult.ret.injEq, true_and] at hret
    exact hret ▸ hp
  | cons op ops ih =>
    intro p p1 hp hret
    simp only [runWrites] at hret
    cases hw : op.run p with
    | panic q => rw [hw] at hret; simp at hret
    | ret err q =>
      rw [hw] at hret
      cases err with
      | some x => simp at hret
      | none => exact ih q p1 (run_tracked op p q hp hw) hret

theorem sha1_sum_length (msg : List Byte) : (SHA1.sum msg).length = 20 := by
  simp [SHA1.sum, SHA1.wordBytes]

/-- C10. Footer covers all written content: after any sequence of successful
write calls on the stream made by `createPBO`, the hasher has been fed exactly
the bytes of the file, in order; `writeHash` then succeeds and appends 21
bytes, a zero byte and the SHA-1 digest of the whole file before the footer;
and on the resulting file `validateFile` reads a stored digest and computes a
digest that are equal. -/
theorem writeHash_covers_content (p0 p : pboStream) (ops : List WriteOp)
    (hcreate : createPBO none = Except.ok p0)
    (hwrites : runWrites p0 ops = WriteResult.ret none p) :
    p.hasher = some ⟨p.file.data⟩
    ∧ ∃ p1 : pboStream, writeHash p = WriteResult.ret none p1
      ∧ p1.file.data = p.file.data ++ 0 :: SHA1.sum p.file.data
      ∧ (0 :: SHA1.sum p.file.data).length = 21
      ∧ ∃ p2 : pboStream, validateFileHashes p1 =
          (none, SHA1.sum p.file.data, SHA1.sum p.file.data, p2) := by
  have h0 : Tracked p0 := by
    simp only [createPBO, Except.ok.injEq] at hcreate
    subst hcreate
    exact ⟨rfl, rfl, rfl⟩
  obtain ⟨hh, hpos, hw⟩ := runWrites_tracked ops p0 p h0 hwrites
  have hwr : p.file.Write ((0 : Byte) :: SHA1.sum p.file.data)
      = (21, none, { p.file with data := p.file.data ++ 0 :: SHA1.sum p.file.data
                                 pos := p.file.pos + 21 }) := by
    unfold OsFile.Write
    rw [if_neg (by simp [hw]), if_neg (by simp)]
    simp [hpos, sha1_sum_length]
  refine ⟨hh, { p with file := { p.file with data := p.file.data ++ 0 :: SHA1.sum p.file.data
                                             pos := p.file.pos + 21 } },
    ?_, rfl, by simp [sha1_sum_length], ?_⟩
  · unfold writeHash
    rw [hh]
    simp only [Hash.Sum, hwr]
  · have hlen : (p.file.data ++ 0 :: SHA1.sum p.file.data).length
        = p.file.data.length + 21 := by simp [sha1_sum_length]
    have hv := validateFileHashes_spec
      { p with file := { p.file with data := p.file.data ++ 0 :: SHA1.sum p.file.data
                                     pos := p.file.pos + 21 } }
      (by simp only [hlen]; omega)
    simp only [hlen] at hv
    have e1 : p.file.data.length + 21 - 20 = p.file.data.length + 1 := by omega
    have e2 : p.file.data.length + 21 - 21 = p.file.data.length := by omega
    have d1 : (p.file.data ++ 0 :: SHA1.sum p.file.data).drop (p.file.data.length + 1)
        = SHA1.sum p.file.data := by
      rw [List.drop_append_eq_append_drop, List.drop_of_length_le (by omega)]
      simp
    have d2 : (p.file.data ++ 0 :: SHA1.sum p.file.data).take p.file.data.length
        = p.file.data := by simp
    rw [e1, e2, d1, d2] at hv
    exact ⟨_, hv⟩

/-! ## The loops never run out of fuel -/

theorem readString_ok_inv (p p1 : pboStream) (s : List Byte)
    (h : readString p = (s, none, p1)) :
    p1 = p.advance (s.length + 1) ∧ p.file.pos + (s.length + 1) ≤ p.file.data.length := by
  by_cases h0 : (0 : Byte) ∈ p.rest
  · obtain ⟨t, ht⟩ := split_at_zero p.rest h0
    have hs : ∀ x ∈ p.rest.takeWhile (fun x => decide (x ≠ 0)), x ≠ 0 := by
      intro x hx
      simpa using List.mem_takeWhile_imp hx
    rw [readString_of_zero p _ t hs ht] at h
    simp only [Prod.mk.injEq, true_and] at h
    obtain ⟨h1, h2⟩ := h
    subst h1
    refine ⟨h2.symm, ?_⟩
    have hl := rest_length p
    have hlen := congrArg List.length ht
    simp only [List.length_append, List.length_cons] at hlen
    omega
  · have hs : ∀ x ∈ p.rest, x ≠ 0 := fun x hx hx0 => h0 (hx0 ▸ hx)
    rw [readString_of_eof p hs] at h
    simp at h

theorem readUInt32_ok_inv (p p1 : pboStream) (v : Nat) (h : readUInt32 p = (v, none, p1)) :
    p1 = p.advance 4 ∧ p.file.pos + 4 ≤ p.file.data.length := by
  unfold readUInt32 OsFile.ReadFull at h
  dsimp only at h
  by_cases hl : ((p.file.data.drop p.file.pos).take 4).length = 4
  · rw [if_pos hl] at h
    simp only [Option.isSome_none, Bool.false_eq_true, if_false, Prod.mk.injEq, true_and] at h
    refine ⟨?_, ?_⟩
    · rw [← h.2, hl]; rfl
    · simp at hl; omega
  · rw [if_neg hl] at h
    by_cases hz : ((p.file.data.drop p.file.pos).take 4).length = 0
    · rw [if_pos hz] at h; simp at h
    · rw [if_neg hz] at h; simp at h

theorem readPackingMethod_ok_inv (d : Decls) (p p1 : pboStream) (v : Nat)
    (h : readPackingMethod d p = (v, none, p1)) :
    p1 = p.advance 4 ∧ p.file.pos + 4 ≤ p.file.data.length := by
  unfold readPackingMethod at h
  rcases hr : readUInt32 p with ⟨w, err, q⟩
  rw [hr] at h
  dsimp only at h
  cases err with
  | some e => simp at h
  | none =>
    have := readUInt32_ok_inv p q w hr
    simp only [Option.isSome_none, Bool.false_eq_true, if_false] at h
    split at h
    · simp only [Prod.mk.injEq, true_and] at h
      rw [← h.2]; exact this
    · simp at h

theorem readTimestamp_ok_inv (p p1 : pboStream) (ts : Time)
    (h : readTimestamp p = (ts, none, p1)) :
    p1 = p.advance 4 ∧ p.file.pos + 4 ≤ p.file.data.length := by
  unfold readTimestamp at h
  rcases hr : readUInt32 p with ⟨w, err, q⟩
  rw [hr] at h
  simp only [Prod.mk.injEq] at h
  obtain ⟨_, he, hq⟩ := h
  subst he
  subst hq
  exact readUInt32_ok_inv p q w hr

theorem advance_pos (p : pboStream) (n : Nat) : (p.advance n).file.pos = p.file.pos + n := rfl

theorem advance_data (p : pboStream) (n : Nat) : (p.advance n).file.data = p.file.data := rfl

theorem ite_isSome_none {α : Type} (a b : α) :
    (if (none : Option Error).isSome = true then a else b) = b := if_neg (by decide)

theorem ite_isSome_some {α : Type} (x : Error) (a b : α) :
    (if (some x).isSome = true then a else b) = a := if_pos rfl

theorem err_ne_of_eq {α β : Type} (a a1 : α) (b b1 : β) (x : Error)
    (h : (a, some x, b) = (a1, (none : Option Error), b1)) : False := by
  simp at h

/-- A `readFileEntry` that returns no error has moved the cursor forward by at
least 21 bytes, all of them inside the file, and changed nothing else. -/
theorem readFileEntry_ok_inv (d : Decls) (p p1 : pboStream) (parent : Option Nat)
    (e : FileEntry) (h : readFileEntry d p parent = (e, none, p1)) :
    ∃ n, 21 ≤ n ∧ p1 = p.advance n ∧ p.file.pos + n ≤ p.file.data.length := by
  unfold readFileEntry at h
  rcases h1 : readString p with ⟨name, err1, q1⟩
  rw [h1] at h
  dsimp only at h
  cases err1 with
  | some x => rw [ite_isSome_some] at h; exact (err_ne_of_eq _ _ _ _ _ h).elim
  | none =>
    obtain ⟨a1, b1⟩ := readString_ok_inv p q1 name h1
    rcases h2 : readPackingMethod d q1 with ⟨pack, err2, q2⟩
    rw [ite_isSome_none, h2] at h
    dsimp only at h
    cases err2 with
    | some x => rw [ite_isSome_some] at h; exact (err_ne_of_eq _ _ _ _ _ h).elim
    | none =>
      obtain ⟨a2, b2⟩ := readPackingMethod_ok_inv d q1 q2 pack h2
      rcases h3 : readUInt32 q2 with ⟨osz, err3, q3⟩
      rw [ite_isSome_none, h3] at h
      dsimp only at h
      cases err3 with
      | some x => rw [ite_isSome_some] at h; exact (err_ne_of_eq _ _ _ _ _ h).elim
      | none =>
        obtain ⟨a3, b3⟩ := readUInt32_ok_inv q2 q3 osz h3
        rcases h4 : readUInt32 q3 with ⟨res, err4, q4⟩
        rw [ite_isSome_none, h4] at h
        dsimp only at h
        cases err4 with
        | some x => rw [ite_isSome_some] at h; exact (err_ne_of_eq _ _ _ _ _ h).elim
        | none =>
          obtain ⟨a4, b4⟩ := readUInt32_ok_inv q3 q4 res h4
          rcases h5 : readTimestamp q4 with ⟨ts, err5, q5⟩
          rw [ite_isSome_none, h5] at h
          dsimp only at h
          cases err5 with
          | some x => rw [ite_isSome_some] at h; exact (err_ne_of_eq _ _ _ _ _ h).elim
          | none =>
            obtain ⟨a5, b5⟩ := readTimestamp_ok_inv q4 q5 ts h5
            rcases h6 : readUInt32 q5 with ⟨dsz, err6, q6⟩
            rw [ite_isSome_none, h6] at h
            simp only [Prod.mk.injEq] at h
            obtain ⟨_, he, hq⟩ := h
            subst he
            subst hq
            obtain ⟨a6, b6⟩ := readUInt32_ok_inv q5 q6 dsz h6
            subst a1
            subst a2
            subst a3
            subst a4
            subst a5
            subst a6
            simp only [advance_advance, advance_pos, advance_data] at *
            exact ⟨name.length + 1 + 4 + 4 + 4 + 4 + 4, by omega, rfl, by omega⟩

/-- The loop of `readFileEntries` gives the same result with any fuel above
the number of bytes left: the fuel `readFileEntries` passes never runs out. -/
theorem readFileEntriesLoop_fuel (d : Decls) (parent : Option Nat) :
    ∀ (n m : Nat) (p : pboStream) (start : Int) (acc : List FileEntry),
      p.rest.length < n → p.rest.length < m →
      readFileEntriesLoop d parent n p start acc
        = readFileEntriesLoop d parent m p start acc := by
  intro n
  induction n with
  | zero => intro m p start acc hn; omega
  | succ n ih =>
    intro m p start acc hn hm
    cases m with
    | zero => omega
    | succ m =>
      unfold readFileEntriesLoop
      rcases hrd : readFileEntry d p parent with ⟨entry, err, p1⟩
      dsimp only
      cases err with
      | some x => rfl
      | none =>
        simp only [Option.isSome_none, Bool.false_eq_true, if_false]
        by_cases hemp : d.IsEmpty entry = true
        · rw [if_pos hemp, if_pos hemp]
        · rw [if_neg hemp, if_neg hemp]
          obtain ⟨k, hk, hp1, hle⟩ := readFileEntry_ok_inv d p p1 parent entry hrd
          subst hp1
          have hl := rest_length p
          have hl1 := rest_length (p.advance k)
          rw [advance_pos, advance_data] at hl1
          exact ih m (p.advance k) _ _ (by omega) (by omega)

theorem readHeader_ok_inv (p p1 : pboStream) (k v : List Byte)
    (h : readHeader p = (k, v, none, p1)) :
    ∃ n, 2 ≤ n ∧ p1 = p.advance n ∧ p.file.pos + n ≤ p.file.data.length := by
  unfold readHeader at h
  rcases h1 : readString p with ⟨key, err1, q1⟩
  rw [h1] at h
  dsimp only at h
  cases err1 with
  | some x =>
    rw [ite_isSome_some] at h
    simp at h
  | none =>
    obtain ⟨a1, b1⟩ := readString_ok_inv p q1 key h1
    rcases h2 : readString q1 with ⟨value, err2, q2⟩
    rw [ite_isSome_none, h2] at h
    simp only [Prod.mk.injEq] at h
    obtain ⟨_, _, he, hq⟩ := h
    subst he
    subst hq
    obtain ⟨a2, b2⟩ := readString_ok_inv q1 q2 value h2
    subst a1
    subst a2
    simp only [advance_advance, advance_pos, advance_data] at *
    exact ⟨key.length + 1 + (value.length + 1), by omega, rfl, by omega⟩

/-- The loop of `readHeaders` gives the same result with any fuel above the
number of bytes left: the fuel `readHeaders` passes never runs out. -/
theorem readHeadersLoop_fuel :
    ∀ (n m : Nat) (p : pboStream) (b0 : Byte) (m0 : GoMap (List Byte)),
      p.rest.length < n → p.rest.length < m →
      readHeadersLoop n p [b0] m0 = readHeadersLoop m p [b0] m0 := by
  intro n
  induction n with
  | zero => intro m p b0 m0 hn; omega
  | succ n ih =>
    intro m p b0 m0 hn hm
    cases m with
    | zero => omega
    | succ m =>
      unfold readHeadersLoop
      cases hrest : p.rest with
      | nil =>
        have hpos : (some Error.EOF).isSome = true ∨ ([b0] : List Byte).getD 0 0 = 0 :=
          Or.inl rfl
        rw [read_one_nil p b0 hrest]
        dsimp only
        rw [if_pos hpos, if_pos hpos]
      | cons x r =>
        rw [read_one_cons p b0 x r hrest]
        dsimp only
        by_cases hx : x = 0
        · subst hx
          rw [if_pos (show (none : Option Error).isSome = true ∨ ([0] : List Byte).getD 0 0 = 0
            from Or.inr rfl)]
          rw [if_pos (show (none : Option Error).isSome = true ∨ ([0] : List Byte).getD 0 0 = 0
            from Or.inr rfl)]
        · have hne : ¬ ((none : Option Error).isSome = true ∨ ([x] : List Byte).getD 0 0 = 0) := by
            simp [hx]
          rw [if_neg hne, if_neg hne, seek_back_one]
          have e : ({ p with file := p.file } : pboStream) = p := rfl
          rw [e]
          rcases hh : readHeader p with ⟨key, value, err, p3⟩
          dsimp only
          cases err with
          | some y => rw [ite_isSome_some, ite_isSome_some]
          | none =>
            rw [ite_isSome_none, ite_isSome_none]
            obtain ⟨k, hk, hp3, hle⟩ := readHeader_ok_inv p p3 key value hh
            subst hp3
            have hl := rest_length p
            have hl1 := rest_length (p.advance k)
            rw [advance_pos, advance_data] at hl1
            exact ih m (p.advance k) x _ (by omega) (by omega)

theorem readFileEntries_fuel (d : Decls) (p : pboStream) (parent : Option Nat) (n : Nat)
    (h : p.rest.length < n) :
    readFileEntriesLoop d parent n p 0 [] = readFileEntries d p parent := by
  have hl := rest_length p
  exact readFileEntriesLoop_fuel d parent n _ p 0 [] h (by omega)

theorem readHeaders_fuel (p : pboStream) (n : Nat) (h : p.rest.length < n) :
    readHeadersLoop n p [0] [] = readHeaders p := by
  have hl := rest_length p
  exact readHeadersLoop_fuel n _ p 0 [] h (by omega)

/-! ## Packing codes and validation -/

/-- C7. Unknown packing code: with four bytes at the cursor whose
little-endian value is `c`, `readPackingMethod` returns `c` with no error when
`c` is one of the three recognised codes and otherwise fails with
`InvalidPackingMethod c`; either way the cursor moves by exactly 4. When
`readFileEntry` meets an unrecognised code behind a filename, it returns that
error with the cursor just behind the code, and the entry it hands back has
none of the four later fields filled in. -/
theorem readPackingMethod_unknown_code (d : Decls) (p q : pboStream) (parent : Option Nat)
    (name : List Byte) (b0 b1 b2 b3 : Byte) (t : List Byte)
    (hp : p.rest = b0 :: b1 :: b2 :: b3 :: t)
    (hname : ∀ x ∈ name, x ≠ 0)
    (hq : q.rest = name ++ 0 :: b0 :: b1 :: b2 :: b3 :: t) :
    readPackingMethod d p =
        (if d.recognised (leUint32 [b0, b1, b2, b3]) then
          (leUint32 [b0, b1, b2, b3], none, p.advance 4)
        else
          (d.PackingMethodUncompressed,
            some (Error.InvalidPackingMethod (leUint32 [b0, b1, b2, b3])), p.advance 4))
      ∧ (¬ d.recognised (leUint32 [b0, b1, b2, b3]) →
          readFileEntry d q parent =
            ({ FileEntry.new parent with
                Filename := name, Packing := d.PackingMethodUncompressed },
              some (Error.InvalidPackingMethod (leUint32 [b0, b1, b2, b3])),
              q.advance (name.length + 1 + 4))
          ∧ (q.advance (name.length + 1 + 4)).rest = t) := by
  refine ⟨readPackingMethod_of_rest d p b0 b1 b2 b3 t hp, fun hc => ⟨?_, ?_⟩⟩
  · exact readFileEntry_bad_code d q parent name b0 b1 b2 b3 t hname hq hc
  · rw [rest_advance, hq]
    have e : name ++ 0 :: b0 :: b1 :: b2 :: b3 :: t = (name ++ [0, b0, b1, b2, b3]) ++ t := by
      simp
    have l : name.length + 1 + 4 = (name ++ [0, b0, b1, b2, b3]).length := by simp
    rw [e, l, List.drop_left]

theorem validateFile_of_entry (d : Decls) (p q : pboStream) (e : FileEntry)
    (hlen : 20 ≤ p.file.data.length)
    (hentry : readFileEntry d { p with file := { p.file with pos := 0 } } none = (e, none, q)) :
    (validateFile d p).1 =
      if e.Packing = d.PackingMethodProductEntry then none
      else some Error.ErrInvalidProductEntry := by
  rw [validateFile_eq d p hlen, validateProductEntry_eq]
  dsimp only
  rw [hentry]
  dsimp only [Option.isSome]
  rw [if_neg (by decide)]
  by_cases h : e.Packing = d.PackingMethodProductEntry
  · simp [IsProductEntry, h]
  · simp [IsProductEntry, h]

/-- C5. Validation success: a file of at least 21 bytes whose last 20 bytes
are the SHA-1 digest of its bytes `[0, length-21)`, whose byte at `length-21`
is zero and whose bytes from offset 0 decode as a FileEntry with the
ProductEntry code passes `validateFile` (no error), whatever the cursor was. -/
theorem validateFile_success (d : Decls) (p q : pboStream) (e : FileEntry)
    (hlen : 21 ≤ p.file.data.length)
    (_hdigest : p.file.data.drop (p.file.data.length - 20)
      = SHA1.sum (p.file.data.take (p.file.data.length - 21)))
    (_hmarker : p.file.data[p.file.data.length - 21]? = some 0)
    (hentry : readFileEntry d { p with file := { p.file with pos := 0 } } none = (e, none, q))
    (hprod : e.Packing = d.PackingMethodProductEntry) :
    (validateFile d p).1 = none := by
  rw [validateFile_of_entry d p q e (by omega) hentry, if_pos hprod]

/-- C6. Validation failure on marker: a file of at least 21 bytes whose stored
digest matches the SHA-1 of its bytes `[0, length-21)` and whose first record
decodes with a packing code other than ProductEntry makes `validateFile`
return `ErrInvalidProductEntry`. -/
theorem validateFile_invalid_product_entry (d : Decls) (p q : pboStream) (e : FileEntry)
    (hlen : 21 ≤ p.file.data.length)
    (_hdigest : p.file.data.drop (p.file.data.length - 20)
      = SHA1.sum (p.file.data.take (p.file.data.length - 21)))
    (hentry : readFileEntry d { p with file := { p.file with pos := 0 } } none = (e, none, q))
    (hother : e.Packing ≠ d.PackingMethodProductEntry) :
    (validateFile d p).1 = some Error.ErrInvalidProductEntry := by
  rw [validateFile_of_entry d p q e (by omega) hentry, if_neg hother]

/-- C2. The digest mismatch is lost: `goodArchive` passes validation;
`corruptedArchive` is the same file with the one content byte at offset 21
changed and the footer untouched, so the SHA-1 of its bytes `[0, length-21)`
differs from its last 20 bytes; `validateFile` finds the two digests
different and still returns no error instead of `ErrFileCorrupted`. -/
theorem validateFile_misses_corruption :
    (validateFile pboDecls (opened goodArchive)).1 = none
    ∧ corruptedArchive.length = goodArchive.length
    ∧ corruptedArchive.take 21 = goodArchive.take 21
    ∧ corruptedArchive.drop 22 = goodArchive.drop 22
    ∧ corruptedArchive.drop (corruptedArchive.length - 20)
        ≠ SHA1.sum (corruptedArchive.take (corruptedArchive.length - 21))
    ∧ (validateFileHashes (opened corruptedArchive)).2.1
        ≠ (validateFileHashes (opened corruptedArchive)).2.2.1
    ∧ (validateFile pboDecls (opened corruptedArchive)).1 = none := by
  decide

/-! ## The theorems at concrete inputs -/

theorem writeFileEntry_readFileEntry_witness :
    ∃ p1 : pboStream,
      writeFileEntry created entryB = WriteResult.ret none p1
      ∧ p1.file.pos = created.file.pos + (entryB.Filename.length + 1 + 20)
      ∧ readFileEntry pboDecls
          { p1 with file := (p1.file.Seek (created.file.pos : Int) Whence.SeekStart).2.2 } none
        = ({ entryB with start := 0, parent := none }, none, p1) :=
  writeFileEntry_readFileEntry pboDecls created sha1New entryB none rfl rfl (by decide)
    (by decide) (by decide) (by decide) (by decide) rfl (by decide) (by decide)

theorem readFileEntries_offsets_witness :
    readFileEntries pboDecls (opened sampleTable) none
        = (sampleEntries, none, (opened sampleTable).advance 73)
      ∧ (sampleEntries.get ⟨1, by decide⟩).start
        = ((sampleEntries.take 1).map (fun e => (e.DataSize : Int))).sum := by
  have h : readFileEntries pboDecls (opened sampleTable) none
      = (sampleEntries, none, (opened sampleTable).advance 73) := by decide
  exact ⟨h, readFileEntries_offsets pboDecls _ _ none sampleEntries h 1 (by decide)⟩

theorem readFileEntries_sentinel_witness :
    readFileEntries pboDecls (opened sampleTable) none =
        (assignStarts none 0 [entryA, entryB], none,
          (opened sampleTable).advance ((encodeFileEntries [entryA, entryB]).length + 21))
      ∧ ((opened sampleTable).advance ((encodeFileEntries [entryA, entryB]).length + 21)).rest
        = [104, 101, 108, 108, 111, 97, 98, 99] :=
  readFileEntries_sentinel pboDecls (opened sampleTable) none [entryA, entryB]
    [104, 101, 108, 108, 111, 97, 98, 99] (by decide) (by decide) (by decide) (by decide)

theorem validateFile_success_witness :
    (validateFile pboDecls (opened goodArchive)).1 = none :=
  validateFile_success pboDecls (opened goodArchive) ((opened goodArchive).advance 21)
    productEntry (by decide) (by decide) (by decide) (by decide) (by decide)

theorem validateFile_invalid_product_entry_witness :
    (validateFile pboDecls (opened unmarkedArchive)).1 = some Error.ErrInvalidProductEntry :=
  validateFile_invalid_product_entry pboDecls (opened unmarkedArchive)
    ((opened unmarkedArchive).advance 22) plainEntry (by decide) (by decide) (by decide)
    (by decide)

theorem readPackingMethod_unknown_code_witness :
    readPackingMethod pboDecls (opened [7, 0, 0, 0, 9])
        = (0, some (Error.InvalidPackingMethod 7), (opened [7, 0, 0, 0, 9]).advance 4)
      ∧ readFileEntry pboDecls (opened [97, 0, 7, 0, 0, 0, 9]) none
        = ({ FileEntry.new none with Filename := [97], Packing := 0 },
            some (Error.InvalidPackingMethod 7), (opened [97, 0, 7, 0, 0, 0, 9]).advance 6)
      ∧ ((opened [97, 0, 7, 0, 0, 0, 9]).advance 6).rest = [9] := by
  have h := readPackingMethod_unknown_code pboDecls (opened [7, 0, 0, 0, 9])
    (opened [97, 0, 7, 0, 0, 0, 9]) none [97] 7 0 0 0 [9] (by decide) (by decide) (by decide)
  have hc : ¬ pboDecls.recognised (leUint32 [7, 0, 0, 0]) := by decide
  rw [if_neg hc] at h
  exact ⟨h.1, h.2 hc⟩

theorem readHeaders_roundtrip_witness :
    ∃ m : GoMap (List Byte),
      readHeaders (opened sampleHeaders)
        = (m, none, (opened sampleHeaders).advance ((encodeHeaders [([98], [50]), ([97], [49])]).length + 1))
      ∧ (∀ k v, List.lookup k m = some v ↔ (k, v) ∈ [(([98] : List Byte), ([50] : List Byte)), ([97], [49])])
      ∧ ((opened sampleHeaders).advance ((encodeHeaders [([98], [50]), ([97], [49])]).length + 1)).rest
        = [7] :=
  readHeaders_roundtrip (opened sampleHeaders) [([98], [50]), ([97], [49])] [7] (by decide)
    (by decide) (by decide)

theorem writeHash_covers_content_witness :
    runWrites created sampleOps = WriteResult.ret none sampleWritten
      ∧ sampleWritten.hasher = some ⟨sampleWritten.file.data⟩
      ∧ ∃ p1 : pboStream, writeHash sampleWritten = WriteResult.ret none p1
        ∧ p1.file.data = sampleWritten.file.data ++ 0 :: SHA1.sum sampleWritten.file.data
        ∧ (0 :: SHA1.sum sampleWritten.file.data).length = 21
        ∧ ∃ p2 : pboStream, validateFileHashes p1 =
            (none, SHA1.sum sampleWritten.file.data, SHA1.sum sampleWritten.file.data, p2) := by
  have h : runWrites created sampleOps = WriteResult.ret none sampleWritten := by decide
  exact ⟨h, writeHash_covers_content created sampleWritten sampleOps rfl h⟩

/-! ## Data accessor -/

theorem readDataLogged_fst (p : pboStream) (entry : FileEntry) :
    (readDataLogged p entry).1 = readData p entry := by
  unfold readDataLogged readData
  cases p.cache.bind (fun c => GoMap.get c entry.Filename) with
  | some buf => rfl
  | none =>
    dsimp only
    split <;> try rfl
    split <;> rfl

theorem readData_hit (p : pboStream) (entry : FileEntry) (buf : List Byte)
    (h : p.cache.bind (fun c => GoMap.get c entry.Filename) = some buf) :
    readDataLogged p entry = ((some buf, none, p), []) := by
  unfold readDataLogged
  rw [h]

theorem readData_miss (p : pboStream) (entry : FileEntry)
    (h : p.cache.bind (fun c => GoMap.get c entry.Filename) = none) :
    (readDataLogged p entry).2 ≠ [] := by
  unfold readDataLogged
  rw [h]
  dsimp only
  split
  · simp
  · split <;> simp

/-- What `readData` returns and how it leaves the stream when the entry is not
served from the cache. -/
theorem readData_of_miss (p : pboStream) (entry : FileEntry)
    (h : p.cache.bind (fun c => GoMap.get c entry.Filename) = none) :
    readData p entry =
      (match p.file.Seek (p.dataStart + entry.start) Whence.SeekStart with
      | (_, err, f1) =>
        if err.isSome then (none, err, { p with file := f1 })
        else
          match f1.Read (List.replicate entry.DataSize 0) with
          | (buf, _, err, f2) =>
            if err.isSome then (some buf, err, { p with file := f2 })
            else
              (some buf, none,
                { p with file := f2
                         cache := p.cache.map (fun c => GoMap.set c entry.Filename buf) })) := by
  unfold readData
  rw [h]

theorem readData_ok_cached (p p1 : pboStream) (entry : FileEntry) (c : GoMap (List Byte))
    (buf : Option (List Byte)) (hc : p.cache = some c)
    (h : readData p entry = (buf, none, p1)) :
    ∃ b, buf = some b ∧ p1.cache.bind (fun c => GoMap.get c entry.Filename) = some b := by
  cases hl : p.cache.bind (fun c => GoMap.get c entry.Filename) with
  | some b =>
    have h1 := readData_hit p entry b hl
    have h2 := readDataLogged_fst p entry
    rw [h1] at h2
    rw [← h2] at h
    simp only [Prod.mk.injEq, true_and] at h
    exact ⟨b, h.1.symm, by rw [← h.2]; exact hl⟩
  | none =>
    rw [readData_of_miss p entry hl] at h
    rcases hs : p.file.Seek (p.dataStart + entry.start) Whence.SeekStart with ⟨off, err, f1⟩
    rw [hs] at h
    dsimp only at h
    cases err with
    | some x => rw [ite_isSome_some] at h; simp at h
    | none =>
      rw [ite_isSome_none] at h
      rcases hr : f1.Read (List.replicate entry.DataSize 0) with ⟨b, n, err2, f2⟩
      rw [hr] at h
      dsimp only at h
      cases err2 with
      | some x => rw [ite_isSome_some] at h; simp at h
      | none =>
        rw [ite_isSome_none] at h
        simp only [Prod.mk.injEq, true_and] at h
        refine ⟨b, h.1.symm, ?_⟩
        rw [← h.2, hc]
        simp [GoMap.get, lookup_set]

/-- C11 (amended). Caching: on a stream whose cache is installed (not nil),
when `readData` succeeds, a second `readData` for the same entry right after
it returns the same bytes with no error, makes no call on the backing store
(no seek, no read) and leaves the stream, cursor and cache included, as it
was. -/
theorem readData_cached_second_call (p p1 : pboStream) (entry : FileEntry)
    (c : GoMap (List Byte)) (buf : Option (List Byte)) (hc : p.cache = some c)
    (h : readData p entry = (buf, none, p1)) :
    readData p1 entry = (buf, none, p1)
    ∧ readDataLogged p1 entry = ((buf, none, p1), []) := by
  obtain ⟨b, hb, hl⟩ := readData_ok_cached p p1 entry c buf hc h
  have h2 : readDataLogged p1 entry = ((buf, none, p1), []) := by
    rw [readData_hit p1 entry b hl, hb]
  refine ⟨?_, h2⟩
  rw [← readDataLogged_fst, h2]

/-- C11 (counterexample). On the stream `openPBO` builds, whose cache is nil,
`readData` succeeds and the second `readData` for the same entry seeks and
reads the backing store again. -/
theorem readData_uncached_second_call :
    readData (opened [1, 2, 3]) entryX = (some [1, 2, 3], none, (opened [1, 2, 3]).advance 3)
    ∧ readDataLogged ((opened [1, 2, 3]).advance 3) entryX
      = ((some [1, 2, 3], none, (opened [1, 2, 3]).advance 3),
          [StoreCall.seek 0 Whence.SeekStart, StoreCall.read 3]) := by
  decide

theorem readData_cached_second_call_witness :
    readData (openedCaching [1, 2, 3]) entryX
        = (some [1, 2, 3], none, ⟨0, some [([120], [1, 2, 3])], none, ⟨[1, 2, 3], 3, false⟩⟩)
    ∧ readData ⟨0, some [([120], [1, 2, 3])], none, ⟨[1, 2, 3], 3, false⟩⟩ entryX
        = (some [1, 2, 3], none, ⟨0, some [([120], [1, 2, 3])], none, ⟨[1, 2, 3], 3, false⟩⟩)
    ∧ readDataLogged ⟨0, some [([120], [1, 2, 3])], none, ⟨[1, 2, 3], 3, false⟩⟩ entryX
        = ((some [1, 2, 3], none,
            ⟨0, some [([120], [1, 2, 3])], none, ⟨[1, 2, 3], 3, false⟩⟩), []) := by
  have h : readData (openedCaching [1, 2, 3]) entryX
      = (some [1, 2, 3], none, ⟨0, some [([120], [1, 2, 3])], none, ⟨[1, 2, 3], 3, false⟩⟩) := by
    decide
  have h2 := readData_cached_second_call (openedCaching [1, 2, 3]) _ entryX []
    (some [1, 2, 3]) rfl h
  exact ⟨h, h2.1, h2.2⟩

/-- When the entry is not served from the cache and its byte range lies inside
the file, `readData` returns exactly the bytes of that range. -/
theorem readData_in_range (p : pboStream) (entry : FileEntry) (off : Nat)
    (hmiss : p.cache.bind (fun c => GoMap.get c entry.Filename) = none)
    (hoff : p.dataStart + entry.start = (off : Int))
    (hle : off + entry.DataSize ≤ p.file.data.length) :
    (readData p entry).1 = some ((p.file.data.drop off).take entry.DataSize)
    ∧ (readData p entry).2.1 = none := by
  rw [readData_of_miss p entry hmiss, hoff, seek_start]
  dsimp only
  rw [ite_isSome_none]
  by_cases hz : entry.DataSize = 0
  · rw [hz]
    simp [OsFile.Read]
  · have hrd := osRead_full { p.file with pos := off } (List.replicate entry.DataSize 0)
      (by simpa using hz) (by simpa using hle)
    simp only [List.length_replicate] at hrd
    rw [hrd]
    dsimp only
    rw [ite_isSome_none]
    exact ⟨rfl, rfl⟩

/-- C12. A short read is taken for a full one: on a 3-byte file an entry of
`DataSize` 5 at offset 0 has a byte range that runs past the end of the store,
yet `readData` returns success with the three bytes followed by two zero
bytes, and with a cache installed it stores them. -/
theorem readData_short_read_succeeds :
    readData (opened [97, 98, 99]) entryLong
        = (some [97, 98, 99, 0, 0], none, (opened [97, 98, 99]).advance 3)
    ∧ readData (openedCaching [97, 98, 99]) entryLong
        = (some [97, 98, 99, 0, 0], none,
            ⟨0, some [([120], [97, 98, 99, 0, 0])], none, ⟨[97, 98, 99], 3, false⟩⟩) := by
  decide

/-- C13. A failed fetch is never cached: when `readData` returns an error,
the cache after the call is the cache before it, the entry's filename is not
in it, and a later `readData` for the same entry calls the backing store
again. -/
theorem readData_error_not_cached (p p1 : pboStream) (entry : FileEntry)
    (buf : Option (List Byte)) (err : Error)
    (h : readData p entry = (buf, some err, p1)) :
    p1.cache = p.cache
    ∧ p1.cache.bind (fun c => GoMap.get c entry.Filename) = none
    ∧ (readDataLogged p1 entry).2 ≠ [] := by
  have key : p1.cache = p.cache
      ∧ p.cache.bind (fun c => GoMap.get c entry.Filename) = none := by
    cases hl : p.cache.bind (fun c => GoMap.get c entry.Filename) with
    | some b =>
      have h1 := readData_hit p entry b hl
      have h2 := readDataLogged_fst p entry
      rw [h1] at h2
      rw [← h2] at h
      simp at h
    | none =>
      rw [readData_of_miss p entry hl] at h
      rcases hs : p.file.Seek (p.dataStart + entry.start) Whence.SeekStart with ⟨off, e1, f1⟩
      rw [hs] at h
      dsimp only at h
      cases e1 with
      | some x =>
        rw [ite_isSome_some] at h
        simp only [Prod.mk.injEq] at h
        exact ⟨by rw [← h.2.2], rfl⟩
      | none =>
        rw [ite_isSome_none] at h
        rcases hr : f1.Read (List.replicate entry.DataSize 0) with ⟨b, n, e2, f2⟩
        rw [hr] at h
        dsimp only at h
        cases e2 with
        | some x =>
          rw [ite_isSome_some] at h
          simp only [Prod.mk.injEq] at h
          exact ⟨by rw [← h.2.2], rfl⟩
        | none =>
          rw [ite_isSome_none] at h
          simp at h
  refine ⟨key.1, ?_, ?_⟩
  · rw [key.1]; exact key.2
  · exact readData_miss p1 entry (by rw [key.1]; exact key.2)

theorem readData_error_not_cached_witness :
    readData (openedCaching []) entryX = (some [0, 0, 0], some Error.EOF, openedCaching [])
    ∧ (openedCaching []).cache = (openedCaching []).cache
    ∧ (openedCaching []).cache.bind (fun c => GoMap.get c entryX.Filename) = none
    ∧ (readDataLogged (openedCaching []) entryX).2 ≠ [] := by
  have h : readData (openedCaching []) entryX
      = (some [0, 0, 0], some Error.EOF, openedCaching []) := by decide
  exact ⟨h, readData_error_not_cached (openedCaching []) (openedCaching []) entryX
    (some [0, 0, 0]) Error.EOF h⟩

/-! ## Entry table and timestamps -/

theorem readFileEntriesLoop_error (d : Decls) (parent : Option Nat) (t : List Byte)
    (e : FileEntry) (err : Error) (q : pboStream) :
    ∀ (rs : List FileEntry) (fuel : Nat) (p : pboStream) (start : Int) (acc : List FileEntry),
      (∀ r ∈ rs, r.Storable d ∧ d.IsEmpty { r with start := 0, parent := parent } = false) →
      p.rest = encodeFileEntries rs ++ t →
      rs.length < fuel →
      readFileEntry d (p.advance (encodeFileEntries rs).length) parent = (e, some err, q) →
      readFileEntriesLoop d parent fuel p start acc =
        (acc ++ assignStarts parent start rs, some err, q) := by
  intro rs
  induction rs with
  | nil =>
    intro fuel p start acc _ _ hf hfail
    cases fuel with
    | zero => omega
    | succ n =>
      simp only [encodeFileEntries, List.length_nil, advance_zero] at hfail
      unfold readFileEntriesLoop
      rw [hfail]
      dsimp only
      rw [ite_isSome_some]
      simp [assignStarts]
  | cons r rs ih =>
    intro fuel p start acc hrs hr hf hfail
    cases fuel with
    | zero => omega
    | succ n =>
      obtain ⟨hst, hne⟩ := hrs r (by simp)
      have h := readFileEntry_of_encode d p parent r (encodeFileEntries rs ++ t) hst
        (by simpa [encodeFileEntries] using hr)
      have hr1 : (p.advance (r.Filename.length + 21)).rest = encodeFileEntries rs ++ t := by
        rw [rest_advance, hr, ← encodeFileEntry_length]
        simp [encodeFileEntries]
      have hfail1 : readFileEntry d
          ((p.advance (r.Filename.length + 21)).advance (encodeFileEntries rs).length) parent
          = (e, some err, q) := by
        rw [advance_advance]
        simpa [encodeFileEntries, encodeFileEntry_length] using hfail
      have := ih n (p.advance (r.Filename.length + 21)) (start + (r.DataSize : Int))
        (acc ++ [{ r with start := start, parent := parent }])
        (fun x hx => hrs x (by simp [hx])) hr1 (by simp at hf; omega) hfail1
      unfold readFileEntriesLoop
      rw [h]
      simp only [Option.isSome_none, Bool.false_eq_true, if_false, hne]
      rw [this]
      simp [assignStarts]

/-- C14 (amended). When the bytes from the cursor hold the records `rs`
(storable, none empty) and decoding the record behind them fails with `err`,
`readFileEntries` returns `err` together with the entries decoded before it:
exactly `rs`, in order, with their `start` offsets, and not the failing
record. -/
theorem readFileEntries_error_keeps_entries (d : Decls) (p q : pboStream)
    (parent : Option Nat) (rs : List FileEntry) (t : List Byte) (e : FileEntry) (err : Error)
    (hrs : ∀ r ∈ rs, r.Storable d ∧ d.IsEmpty { r with start := 0, parent := parent } = false)
    (hr : p.rest = encodeFileEntries rs ++ t)
    (hfail : readFileEntry d (p.advance (encodeFileEntries rs).length) parent
      = (e, some err, q)) :
    readFileEntries d p parent = (assignStarts parent 0 rs, some err, q) := by
  have hl := rest_length p
  have hle := length_le_encodeFileEntries rs
  have := readFileEntriesLoop_error d parent t e err q rs
    (p.file.data.length - p.file.pos + 1) p 0 [] hrs hr
    (by rw [hr] at hl; simp at hl; omega) hfail
  simpa [readFileEntries] using this

/-- C14 (counterexample). On a table cut off inside its second record
`readFileEntries` fails with `EOF` and the entry list it returns with the
error holds the first record. -/
theorem readFileEntries_error_returns_entries :
    readFileEntries pboDecls (opened truncatedTable) none
      = ([entryA], some Error.EOF, (opened truncatedTable).advance 28) := by
  decide

theorem readFileEntries_error_keeps_entries_witness :
    readFileEntries pboDecls (opened truncatedTable) none
      = (assignStarts none 0 [entryA], some Error.EOF, (opened truncatedTable).advance 28) :=
  readFileEntries_error_keeps_entries pboDecls (opened truncatedTable)
    ((opened truncatedTable).advance 28) none [entryA] [98, 46]
    { FileEntry.new none with Filename := [98, 46] } Error.EOF
    (by decide) (by decide) (by decide)

theorem writeFileEntries_ok (h : Hash) :
    ∀ (es : List FileEntry) (p : pboStream), p.hasher = some h → p.file.writable = true →
      writeFileEntries p es =
        WriteResult.ret none (if es = [] then p else p.wrote (encodeFileEntries es)) := by
  intro es
  induction es generalizing h with
  | nil => intro p _ _; rfl
  | cons e es ih =>
    intro p hh hw
    have h1 := writeFileEntry_ok p e h hh hw
    have h2 := ih (h.Write (encodeFileEntry e)) (p.wrote (encodeFileEntry e))
      (wrote_hasher p _ h hh) hw
    simp only [writeFileEntries, h1, h2]
    by_cases hes : es = []
    · subst hes
      simp [encodeFileEntries]
    · simp [hes, wrote_wrote, encodeFileEntries]

theorem spliceAt_end (data b : List Byte) : spliceAt data data.length b = data ++ b := by
  simp [spliceAt]

/-- C15. Entry-table write emits no terminator: on a stream with a hasher
and a writable file `writeFileEntries` succeeds and writes, at the cursor,
exactly the concatenation in list order of the records `writeFileEntry`
writes (filename, zero byte, five little-endian 32-bit fields), moving the
cursor by that many bytes; with the cursor at the end of the file the file
grows by exactly these bytes; for the empty list the stream is unchanged. -/
theorem writeFileEntries_no_terminator (p : pboStream) (h : Hash) (es : List FileEntry)
    (hh : p.hasher = some h) (hw : p.file.writable = true) :
    ∃ p1 : pboStream,
      writeFileEntries p es = WriteResult.ret none p1
      ∧ p1 = (if es = [] then p else p.wrote (encodeFileEntries es))
      ∧ p1.file.pos = p.file.pos + (encodeFileEntries es).length
      ∧ (p.file.pos = p.file.data.length →
          p1.file.data = p.file.data ++ encodeFileEntries es)
      ∧ (es = [] → p1 = p) := by
  refine ⟨_, writeFileEntries_ok h es p hh hw, rfl, ?_, ?_, ?_⟩
  · by_cases hes : es = []
    · subst hes; simp [encodeFileEntries]
    · simp [hes, pboStream.wrote]
  · intro hpos
    by_cases hes : es = []
    · subst hes; simp [encodeFileEntries]
    · simp [hes, pboStream.wrote, hpos, spliceAt_end]
  · intro hes
    simp [hes]

theorem writeFileEntries_no_terminator_witness :
    ∃ p1 : pboStream,
      writeFileEntries created [entryA, entryB] = WriteResult.ret none p1
      ∧ p1 = (if [entryA, entryB] = [] then created
          else created.wrote (encodeFileEntries [entryA, entryB]))
      ∧ p1.file.pos = created.file.pos + (encodeFileEntries [entryA, entryB]).length
      ∧ (created.file.pos = created.file.data.length →
          p1.file.data = created.file.data ++ encodeFileEntries [entryA, entryB])
      ∧ ([entryA, entryB] = [] → p1 = created) :=
  writeFileEntries_no_terminator created sha1New [entryA, entryB] rfl rfl

/-- C16. Timestamp is 32-bit whole-second UNIX time: `writeTimestamp t`
writes the little-endian 4 bytes of `t.Unix() mod 2 ^ 32`; `readTimestamp` of
those bytes returns the time with that many seconds and zero nanoseconds; and
this time equals `t` exactly when `t` has zero nanoseconds and
`0 ≤ t.Unix() < 2 ^ 32`. -/
theorem timestamp_roundtrip (p q : pboStream) (h : Hash) (t : Time) (tail : List Byte)
    (hh : p.hasher = some h) (hw : p.file.writable = true)
    (hq : q.rest = lePutUint32 (toUint32 t.Unix) ++ tail) :
    writeTimestamp p t = WriteResult.ret none (p.wrote (lePutUint32 (toUint32 t.Unix)))
    ∧ ((toUint32 t.Unix : Nat) : Int) = t.Unix % 2 ^ 32
    ∧ readTimestamp q = (Time.ofUnix (toUint32 t.Unix), none, q.advance 4)
    ∧ (Time.ofUnix (toUint32 t.Unix)).Unix = t.Unix % 2 ^ 32
    ∧ (Time.ofUnix (toUint32 t.Unix)).nsec = 0
    ∧ (Time.ofUnix (toUint32 t.Unix) = t ↔ (t.nsec = 0 ∧ 0 ≤ t.Unix ∧ t.Unix < 2 ^ 32)) := by
  have hmod : ((toUint32 t.Unix : Nat) : Int) = t.Unix % 2 ^ 32 := by
    unfold toUint32
    exact Int.toNat_of_nonneg (Int.emod_nonneg _ (by norm_num))
  have hrd : readTimestamp q = (Time.ofUnix (toUint32 t.Unix), none, q.advance 4) := by
    have := readUInt32_of_put q _ tail hq
    rw [Nat.mod_eq_of_lt (toUint32_lt _)] at this
    simp only [readTimestamp, this]
  refine ⟨?_, hmod, hrd, hmod, rfl, ?_⟩
  · unfold writeTimestamp
    exact writeUInt32_ok p _ h hh hw
  · constructor
    · intro heq
      have hs : ((toUint32 t.Unix : Nat) : Int) = t.sec := by
        have := congrArg Time.sec heq
        simpa [Time.ofUnix] using this
      have hn : t.nsec = 0 := by
        have := congrArg Time.nsec heq
        simpa [Time.ofUnix] using this.symm
      have hlt := toUint32_lt t.Unix
      refine ⟨hn, ?_, ?_⟩
      · show 0 ≤ t.sec
        rw [← hs]; exact Int.natCast_nonneg _
      · show t.sec < 2 ^ 32
        rw [← hs]; exact_mod_cast hlt
    · rintro ⟨hn, h0, h1⟩
      have := toUint32_of_range t.Unix h0 h1
      cases t
      simp_all [Time.ofUnix, Time.Unix]

theorem timestamp_roundtrip_witness :
    writeTimestamp created ⟨-1, 5⟩
        = WriteResult.ret none (created.wrote (lePutUint32 (toUint32 (Time.Unix ⟨-1, 5⟩))))
    ∧ readTimestamp (opened [255, 255, 255, 255, 9])
        = (⟨4294967295, 0⟩, none, (opened [255, 255, 255, 255, 9]).advance 4)
    ∧ ¬ (Time.ofUnix (toUint32 (Time.Unix ⟨-1, 5⟩)) = ⟨-1, 5⟩) := by
  have h := timestamp_roundtrip created (opened [255, 255, 255, 255, 9]) sha1New ⟨-1, 5⟩ [9]
    rfl rfl (by decide)
  refine ⟨h.1, ?_, by decide⟩
  have h3 := h.2.2.1
  have e : Time.ofUnix (toUint32 (Time.Unix ⟨-1, 5⟩)) = ⟨4294967295, 0⟩ := by decide
  rw [e] at h3
  exact h3

/-! ## Re-hashing and writes without a hasher -/

theorem validateFileChunks_join :
    ∀ (fuel : Nat) (p : pboStream) (buf : List Byte) (h : Hash) (c len : Int),
      (validateFileLoop fuel p buf h c len).2.1.written
        = h.written ++ (validateFileChunks fuel p buf c len).flatten := by
  intro fuel
  induction fuel with
  | zero => intro p buf h c len; simp [validateFileLoop, validateFileChunks]
  | succ n ih =>
    intro p buf h c len
    unfold validateFileLoop validateFileChunks
    by_cases hlt : c < len
    · rw [if_pos hlt, if_pos hlt]
      dsimp only
      rcases hrd : p.file.Read (if c + (bufferLength : Int) > len then
          List.replicate (len - c).toNat (0 : Byte) else buf) with ⟨buf1, k, err, f1⟩
      dsimp only
      cases err with
      | some x => rw [ite_isSome_some, ite_isSome_some]; simp
      | none =>
        rw [ite_isSome_none, ite_isSome_none, ih]
        simp [Hash.Write]
    · rw [if_neg hlt, if_neg hlt]; simp

theorem osRead_length (f : OsFile) (b : List Byte) : (f.Read b).1.length = b.length := by
  unfold OsFile.Read
  dsimp only
  split
  · rfl
  · split
    · rfl
    · simp

theorem validateFileChunks_sizes :
    ∀ (fuel : Nat) (p : pboStream) (buf : List Byte) (c len : Int),
      buf.length = bufferLength →
      ∀ chunk ∈ validateFileChunks fuel p buf c len,
        0 < chunk.length ∧ chunk.length ≤ bufferLength := by
  intro fuel
  induction fuel with
  | zero => intro p buf c len _ chunk hc; simp [validateFileChunks] at hc
  | succ n ih =>
    intro p buf c len hbuf chunk hc
    unfold validateFileChunks at hc
    by_cases hlt : c < len
    · rw [if_pos hlt] at hc
      dsimp only at hc
      by_cases hlast : c + (bufferLength : Int) > len
      · rw [if_pos hlast] at hc
        have hl := osRead_length p.file (List.replicate (len - c).toNat (0 : Byte))
        rcases hrd : p.file.Read (List.replicate (len - c).toNat (0 : Byte))
          with ⟨buf1, k, err, f1⟩
        rw [hrd] at hc hl
        dsimp only at hc hl
        cases err with
        | some x => rw [ite_isSome_some] at hc; simp at hc
        | none =>
          rw [ite_isSome_none] at hc
          have hdone : validateFileChunks n { p with file := f1 } buf1
              (c + (bufferLength : Int)) len = [] := by
            cases n with
            | zero => rfl
            | succ m =>
              unfold validateFileChunks
              rw [if_neg (by unfold bufferLength at *; omega)]
          rw [hdone] at hc
          simp only [List.mem_singleton] at hc
          subst hc
          simp only [List.length_replicate] at hl
          unfold bufferLength at *
          omega
      · rw [if_neg hlast] at hc
        have hl := osRead_length p.file buf
        rcases hrd : p.file.Read buf with ⟨buf1, k, err, f1⟩
        rw [hrd] at hc hl
        dsimp only at hc hl
        cases err with
        | some x => rw [ite_isSome_some] at hc; simp at hc
        | none =>
          rw [ite_isSome_none] at hc
          rcases List.mem_cons.mp hc with h1 | h1
          · subst h1
            rw [hl, hbuf]
            exact ⟨by decide, Nat.le_refl _⟩
          · exact ih _ _ _ _ (by rw [hl, hbuf]) chunk h1
    · rw [if_neg hlt] at hc
      simp at hc

/-- C17. Chunked re-hash equals whole-prefix hash: for a file of length
`L ≥ 21` the buffers the loop of `validateFile` writes to its hasher
concatenate to exactly the bytes `[0, L-21)` of the file; each buffer holds
between 1 and 8192 bytes; the loop ends without error with the cursor at
`L-21`; and the digest `validateFile` computes is the SHA-1 of those bytes. -/
theorem validateFile_rehash_chunks (p : pboStream) (h21 : 21 ≤ p.file.data.length) :
    (validateFileChunks ((p.file.data.length - 21) + 1)
        { p with file := { p.file with pos := 0 } } (List.replicate bufferLength 0) 0
        ((p.file.data.length - 21 : Nat) : Int)).flatten
      = p.file.data.take (p.file.data.length - 21)
    ∧ (∀ chunk ∈ validateFileChunks ((p.file.data.length - 21) + 1)
        { p with file := { p.file with pos := 0 } } (List.replicate bufferLength 0) 0
        ((p.file.data.length - 21 : Nat) : Int),
        0 < chunk.length ∧ chunk.length ≤ bufferLength)
    ∧ validateFileLoop ((p.file.data.length - 21) + 1)
        { p with file := { p.file with pos := 0 } } (List.replicate bufferLength 0) sha1New 0
        ((p.file.data.length - 21 : Nat) : Int)
      = (none, ⟨p.file.data.take (p.file.data.length - 21)⟩,
          { p with file := { p.file with pos := p.file.data.length - 21 } })
    ∧ (validateFileHashes p).2.2.1 = SHA1.sum (p.file.data.take (p.file.data.length - 21)) := by
  have hloop := validateFileLoop_spec ((p.file.data.length - 21) + 1)
    { p with file := { p.file with pos := 0 } } (List.replicate bufferLength 0) sha1New 0
    (p.file.data.length - 21) rfl (Nat.zero_le _) (by simp) (by simp) (by omega)
  have hz : ((0 : Nat) : Int) = 0 := rfl
  rw [hz] at hloop
  have hloop1 : validateFileLoop ((p.file.data.length - 21) + 1)
        { p with file := { p.file with pos := 0 } } (List.replicate bufferLength 0) sha1New 0
        ((p.file.data.length - 21 : Nat) : Int)
      = (none, ⟨p.file.data.take (p.file.data.length - 21)⟩,
          { p with file := { p.file with pos := p.file.data.length - 21 } }) := by
    rw [hloop]; simp [sha1New]
  refine ⟨?_, ?_, hloop1, ?_⟩
  · have hj := validateFileChunks_join ((p.file.data.length - 21) + 1)
      { p with file := { p.file with pos := 0 } } (List.replicate bufferLength 0) sha1New 0
      ((p.file.data.length - 21 : Nat) : Int)
    rw [hloop1] at hj
    simpa [sha1New] using hj.symm
  · exact validateFileChunks_sizes _ _ _ _ _ (by simp)
  · rw [validateFileHashes_spec p (by omega)]

theorem longFile_length : 21 ≤ (opened longFile).file.data.length := by
  show 21 ≤ (List.replicate 8218 (0 : Byte)).length
  rw [List.length_replicate]
  decide

theorem validateFile_rehash_chunks_witness :
    21 ≤ (opened longFile).file.data.length
    ∧ (validateFileHashes (opened longFile)).2.2.1
      = SHA1.sum ((opened longFile).file.data.take ((opened longFile).file.data.length - 21)) :=
  ⟨longFile_length, (validateFile_rehash_chunks (opened longFile) longFile_length).2.2.2⟩

theorem osWrite_readonly (f : OsFile) (b : List Byte) (hw : f.writable = false) :
    f.Write b = (0, some Error.EBADF, f) := by
  simp [OsFile.Write, hw]

theorem osWrite_empty (f : OsFile) (hw : f.writable = true) :
    f.Write [] = (0, none, f) := by
  simp [OsFile.Write, hw]

theorem writeData_no_hasher (p : pboStream) (b : List Byte) (hh : p.hasher = none) :
    writeData p b =
      if p.file.writable = true then
        WriteResult.panic (if b = [] then p else p.wrote b)
      else WriteResult.ret (some Error.EBADF) p := by
  obtain ⟨ds, c, hs, f⟩ := p
  simp only at hh
  subst hh
  unfold writeData
  by_cases hw : f.writable = true
  · rw [if_pos hw]
    by_cases hb : b = []
    · subst hb
      rw [osWrite_empty f hw]
      rfl
    · rw [osWrite_ok f b hw hb, if_neg hb]
      rfl
  · rw [if_neg hw]
    have hw1 : f.writable = false := by simpa using hw
    rw [osWrite_readonly f b hw1]
    rfl

/-- C18 (amended). Writes without a hasher: on a stream with no hasher,
when the file is writable `writeString`, `writeUInt32` and `writeData` put
their bytes into the file and then panic on the nil hasher; when the file is
read-only, as `openPBO` opens it, the store write fails and each returns that
error, the stream unchanged. -/
theorem writes_without_hasher (p : pboStream) (s : List Byte) (v : Nat) (b : List Byte)
    (hh : p.hasher = none) :
    (p.file.writable = true →
      writeString p s = WriteResult.panic (p.wrote (s ++ [0]))
      ∧ writeUInt32 p v = WriteResult.panic (p.wrote (lePutUint32 v))
      ∧ writeData p b = WriteResult.panic (if b = [] then p else p.wrote b))
    ∧ (p.file.writable = false →
      writeString p s = WriteResult.ret (some Error.EBADF) p
      ∧ writeUInt32 p v = WriteResult.ret (some Error.EBADF) p
      ∧ writeData p b = WriteResult.ret (some Error.EBADF) p) := by
  have h1 : writeString p s = writeData p (s ++ [0]) := rfl
  have h2 : writeUInt32 p v = writeData p (lePutUint32 v) := rfl
  rw [h1, h2, writeData_no_hasher p _ hh, writeData_no_hasher p _ hh,
    writeData_no_hasher p b hh]
  constructor
  · intro hw
    rw [if_pos hw, if_pos hw, if_pos hw]
    simp [lePutUint32]
  · intro hw
    have hw1 : ¬ p.file.writable = true := by simp [hw]
    rw [if_neg hw1, if_neg hw1, if_neg hw1]
    exact ⟨rfl, rfl, rfl⟩

/-- C18 (counterexample). On a stream with no hasher and a writable file the
store write of `writeString` succeeds and the call panics; so do
`writeUInt32` and `writeData`. -/
theorem writeString_nil_hasher_panics :
    bare.hasher = none
    ∧ bare.file.Write [97, 0] = (2, none, ⟨[97, 0], 2, true⟩)
    ∧ writeString bare [97] = WriteResult.panic ⟨0, none, none, ⟨[97, 0], 2, true⟩⟩
    ∧ writeUInt32 bare 1 = WriteResult.panic ⟨0, none, none, ⟨[1, 0, 0, 0], 4, true⟩⟩
    ∧ writeData bare [7] = WriteResult.panic ⟨0, none, none, ⟨[7], 1, true⟩⟩ := by
  decide

theorem writes_without_hasher_witness :
    writeString (opened [5]) [97] = WriteResult.ret (some Error.EBADF) (opened [5])
    ∧ writeUInt32 (opened [5]) 1 = WriteResult.ret (some Error.EBADF) (opened [5])
    ∧ writeData (opened [5]) [7] = WriteResult.ret (some Error.EBADF) (opened [5]) :=
  (writes_without_hasher (opened [5]) [97] 1 [7] rfl).2 rfl

/-! ## The marker byte -/

theorem take_drop_agree (data data2 : List Byte) (k pos n : Nat)
    (h : data2.take k = data.take k) (hle : pos + n ≤ k) :
    (data2.drop pos).take n = (data.drop pos).take n := by
  have e : ∀ l : List Byte, (l.drop pos).take n = ((l.take k).drop pos).take n := by
    intro l
    rw [List.drop_take, List.take_take, Nat.min_eq_left (by omega)]
  rw [e data, e data2, h]

theorem swapData_advance (p : pboStream) (data2 : List Byte) (n : Nat) :
    (swapData p data2).advance n = swapData (p.advance n) data2 := rfl

theorem swapData_rest (p : pboStream) (data2 : List Byte) :
    (swapData p data2).rest = data2.drop p.file.pos := rfl

theorem length_ge_of_take (data data2 : List Byte) (k : Nat) (h : data2.take k = data.take k)
    (hk : k < data.length) : k ≤ data2.length := by
  have := congrArg List.length h
  simp only [List.length_take] at this
  omega

theorem local_readString : LocalRead readString := by
  intro p
  by_cases h0 : (0 : Byte) ∈ p.rest
  · obtain ⟨t, ht⟩ := split_at_zero p.rest h0
    have hs : ∀ x ∈ p.rest.takeWhile (fun x => decide (x ≠ 0)), x ≠ 0 := by
      intro x hx
      simpa using List.mem_takeWhile_imp hx
    have hrd := readString_of_zero p _ t hs ht
    generalize p.rest.takeWhile (fun x => decide (x ≠ 0)) = tw at ht hs hrd
    rw [hrd]
    refine ⟨⟨_, rfl⟩, ?_⟩
    intro data2 k hk hL hagree
    simp only [advance_pos] at hk
    have hl2 := length_ge_of_take _ _ _ hagree hL
    have htk := take_drop_agree p.file.data data2 k p.file.pos (tw.length + 1) hagree hk
    have hrest : (swapData p data2).rest
        = tw ++ 0 :: (data2.drop p.file.pos).drop (tw.length + 1) := by
      rw [swapData_rest]
      have e1 : (p.file.data.drop p.file.pos).take (tw.length + 1) = tw ++ [0] := by
        have : p.file.data.drop p.file.pos = (tw ++ [0]) ++ t := by
          have := ht
          unfold pboStream.rest at this
          rw [this]; simp
        rw [this]
        have hl : tw.length + 1 = (tw ++ [0]).length := by simp
        rw [hl, List.take_left]
      rw [e1] at htk
      calc data2.drop p.file.pos
          = (data2.drop p.file.pos).take (tw.length + 1)
              ++ (data2.drop p.file.pos).drop (tw.length + 1) := (List.take_append_drop _ _).symm
        _ = tw ++ 0 :: (data2.drop p.file.pos).drop (tw.length + 1) := by rw [htk]; simp
    rw [readString_of_zero (swapData p data2) tw _ hs hrest]
    rfl
  · have hs : ∀ x ∈ p.rest, x ≠ 0 := fun x hx hx0 => h0 (hx0 ▸ hx)
    rw [readString_of_eof p hs]
    refine ⟨⟨_, rfl⟩, ?_⟩
    intro data2 k hk hL _
    simp only [advance_pos] at hk
    have := rest_length p
    omega

theorem local_readUInt32 : LocalRead readUInt32 := by
  intro p
  constructor
  · unfold readUInt32 OsFile.ReadFull
    dsimp only
    refine ⟨((p.file.data.drop p.file.pos).take 4).length, ?_⟩
    split
    · rfl
    · split <;> rfl
  · intro data2 k hk hL hagree
    have hl2 := length_ge_of_take _ _ _ hagree hL
    by_cases h4 : p.file.pos + 4 ≤ p.file.data.length
    · have hg : ((p.file.data.drop p.file.pos).take 4).length = 4 := by simp; omega
      have hres : readUInt32 p = (leUint32 ((p.file.data.drop p.file.pos).take 4), none,
          p.advance 4) := by
        unfold readUInt32 OsFile.ReadFull
        dsimp only
        rw [if_pos hg, hg]
        rfl
      rw [hres] at hk ⊢
      simp only [advance_pos] at hk
      have htk := take_drop_agree p.file.data data2 k p.file.pos 4 hagree hk
      have hg2 : (((swapData p data2).file.data.drop (swapData p data2).file.pos).take 4).length
          = 4 := by
        show ((data2.drop p.file.pos).take 4).length = 4
        rw [htk]; exact hg
      unfold readUInt32 OsFile.ReadFull
      dsimp only
      rw [if_pos hg2, hg2]
      show (leUint32 ((data2.drop p.file.pos).take 4), none, _) = _
      rw [htk]
      rfl
    · exfalso
      have hg : ((p.file.data.drop p.file.pos).take 4).length
          = p.file.data.length - p.file.pos := by simp; omega
      have hpos : (readUInt32 p).2.2.file.pos
          = p.file.pos + (p.file.data.length - p.file.pos) := by
        unfold readUInt32 OsFile.ReadFull
        dsimp only
        rw [hg]
        split
        · rfl
        · split <;> rfl
      rw [hpos] at hk
      omega

theorem local_readPackingMethod (d : Decls) : LocalRead (readPackingMethod d) := by
  intro p
  obtain ⟨⟨n, hn⟩, hsw⟩ := local_readUInt32 p
  have hfr : (readPackingMethod d p).2.2 = (readUInt32 p).2.2 := by
    unfold readPackingMethod
    rcases readUInt32 p with ⟨v, err, q⟩
    dsimp only
    split
    · rfl
    · split <;> rfl
  constructor
  · exact ⟨n, by rw [hfr, hn]⟩
  · intro data2 k hk hL hagree
    rw [hfr] at hk ⊢
    have h := hsw data2 k hk hL hagree
    unfold readPackingMethod
    rw [h]
    rcases readUInt32 p with ⟨v, err, q⟩
    dsimp only
    split
    · rfl
    · split <;> rfl

theorem local_readTimestamp : LocalRead readTimestamp := by
  intro p
  obtain ⟨⟨n, hn⟩, hsw⟩ := local_readUInt32 p
  have hfr : (readTimestamp p).2.2 = (readUInt32 p).2.2 := by
    unfold readTimestamp
    rcases readUInt32 p with ⟨v, err, q⟩
    rfl
  constructor
  · exact ⟨n, by rw [hfr, hn]⟩
  · intro data2 k hk hL hagree
    rw [hfr] at hk ⊢
    have h := hsw data2 k hk hL hagree
    unfold readTimestamp
    rw [h]

theorem local_andThenRead {α : Type} (R : pboStream → α × Option Error × pboStream)
    (store : α → FileEntry)
    (next : FileEntry → pboStream → FileEntry × Option Error × pboStream)
    (hR : LocalRead R) (hnext : ∀ e, LocalRead (next e)) :
    LocalRead (fun p => andThenRead (R p) store next) := by
  intro p
  obtain ⟨⟨n, hn⟩, hsw⟩ := hR p
  rcases hRp : R p with ⟨x, err, q⟩
  rw [hRp] at hn hsw
  dsimp only at hn hsw
  subst hn
  cases err with
  | some y =>
    have hval : andThenRead (x, some y, p.advance n) store next
        = (store x, some y, p.advance n) := by
      simp [andThenRead]
    dsimp only
    rw [hRp, hval]
    refine ⟨⟨n, rfl⟩, ?_⟩
    intro data2 k hk hL hagree
    rw [hsw data2 k hk hL hagree]
    simp [andThenRead]
  | none =>
    have hval : andThenRead (x, none, p.advance n) store next
        = next (store x) (p.advance n) := by
      simp [andThenRead]
    dsimp only
    rw [hRp, hval]
    obtain ⟨⟨m, hm⟩, hsw2⟩ := hnext (store x) (p.advance n)
    refine ⟨⟨n + m, by rw [hm, advance_advance]⟩, ?_⟩
    intro data2 k hk hL hagree
    have hk1 : (p.advance n).file.pos ≤ k := by
      rw [hm] at hk
      simp only [advance_pos] at hk ⊢
      omega
    rw [hsw data2 k hk1 hL hagree]
    have hval2 : andThenRead (x, none, swapData (p.advance n) data2) store next
        = next (store x) (swapData (p.advance n) data2) := by
      simp [andThenRead]
    rw [hval2]
    exact hsw2 data2 k hk hL hagree

theorem local_lastField (entry : FileEntry) :
    LocalRead (fun p =>
      (match readUInt32 p with
        | (dsz, err, q) => (({ entry with DataSize := dsz } : FileEntry), err, q))) := by
  intro p
  obtain ⟨⟨n, hn⟩, hsw⟩ := local_readUInt32 p
  constructor
  · refine ⟨n, ?_⟩
    dsimp only
    rw [← hn]
  · intro data2 k hk hL hagree
    dsimp only at hk ⊢
    rw [hsw data2 k hk hL hagree]

theorem readFileEntry_chain (d : Decls) (p : pboStream) (parent : Option Nat) :
    readFileEntry d p parent =
      andThenRead (readString p) (fun name => { FileEntry.new parent with Filename := name })
        (fun entry p1 => andThenRead (readPackingMethod d p1)
          (fun pack => { entry with Packing := pack })
          (fun entry p2 => andThenRead (readUInt32 p2)
            (fun osz => { entry with OriginalSize := osz })
            (fun entry p3 => andThenRead (readUInt32 p3)
              (fun res => { entry with Reserved := res })
              (fun entry p4 => andThenRead (readTimestamp p4)
                (fun ts => { entry with Timestamp := ts })
                (fun entry p5 =>
                  match readUInt32 p5 with
                  | (dsz, err, q) => ({ entry with DataSize := dsz }, err, q)))))) := by
  unfold readFileEntry
  dsimp only [andThenRead]

theorem local_readFileEntry (d : Decls) (parent : Option Nat) :
    LocalRead (fun p => readFileEntry d p parent) := by
  have h : (fun p => readFileEntry d p parent) = (fun p =>
      andThenRead (readString p) (fun name => { FileEntry.new parent with Filename := name })
        (fun entry p1 => andThenRead (readPackingMethod d p1)
          (fun pack => { entry with Packing := pack })
          (fun entry p2 => andThenRead (readUInt32 p2)
            (fun osz => { entry with OriginalSize := osz })
            (fun entry p3 => andThenRead (readUInt32 p3)
              (fun res => { entry with Reserved := res })
              (fun entry p4 => andThenRead (readTimestamp p4)
                (fun ts => { entry with Timestamp := ts })
                (fun entry p5 =>
                  match readUInt32 p5 with
                  | (dsz, err, q) => ({ entry with DataSize := dsz }, err, q))))))) := by
    funext p
    exact readFileEntry_chain d p parent
  rw [h]
  exact local_andThenRead _ _ _ local_readString (fun _ =>
    local_andThenRead _ _ _ (local_readPackingMethod d) (fun _ =>
      local_andThenRead _ _ _ local_readUInt32 (fun _ =>
        local_andThenRead _ _ _ local_readUInt32 (fun _ =>
          local_andThenRead _ _ _ local_readTimestamp (fun e => local_lastField e)))))


theorem validateFile_err_eq (d : Decls) (p p0 : pboStream) (h20 : 20 ≤ p.file.data.length)
    (hp0 : p0 = { p with file := { p.file with pos := 0 } }) :
    (validateFile d p).1 =
      (match readFileEntry d p0 none with
        | (entry, err, _) =>
          if err.isSome then err
          else if IsProductEntry d entry = false then some Error.ErrInvalidProductEntry
          else none) := by
  subst hp0
  rw [validateFile_eq d p h20, validateProductEntry_eq]
  dsimp only
  rcases readFileEntry d { p with file := { p.file with pos := 0 } } none with ⟨e, err, q⟩
  dsimp only
  split
  · rfl
  · split <;> rfl

/-- C19 (amended). The footer marker byte is not examined once the first
record ends before it: for two files of equal length `L ≥ 21` that differ
only in the byte at offset `L-21`, if `readFileEntry` from offset 0 stops at
or before offset `L-21` on one of them, `validateFile` returns the same error
value on both; so when that first record is a ProductEntry, the file with the
other marker byte passes validation. -/
theorem validateFile_ignores_marker (d : Decls) (p : pboStream) (data2 : List Byte)
    (hlen : 21 ≤ p.file.data.length) (hlen2 : data2.length = p.file.data.length)
    (hbefore : data2.take (p.file.data.length - 21) = p.file.data.take (p.file.data.length - 21))
    (_hafter : data2.drop (p.file.data.length - 20) = p.file.data.drop (p.file.data.length - 20))
    (hstop : (readFileEntry d { p with file := { p.file with pos := 0 } } none).2.2.file.pos
      ≤ p.file.data.length - 21) :
    (validateFile d (swapData p data2)).1 = (validateFile d p).1
    ∧ (∀ (e : FileEntry) (q : pboStream),
        readFileEntry d { p with file := { p.file with pos := 0 } } none = (e, none, q) →
        e.Packing = d.PackingMethodProductEntry →
        (validateFile d (swapData p data2)).1 = none) := by
  have hsw : readFileEntry d (swapData { p with file := { p.file with pos := 0 } } data2) none
      = ((readFileEntry d { p with file := { p.file with pos := 0 } } none).1,
          (readFileEntry d { p with file := { p.file with pos := 0 } } none).2.1,
          swapData (readFileEntry d { p with file := { p.file with pos := 0 } } none).2.2
            data2) :=
    (local_readFileEntry d none { p with file := { p.file with pos := 0 } }).2 data2
      (p.file.data.length - 21) hstop (by show _ < p.file.data.length; omega) hbefore
  have h2 := validateFile_err_eq d (swapData p data2)
    (swapData { p with file := { p.file with pos := 0 } } data2)
    (by show 20 ≤ data2.length; omega) rfl
  have h1 := validateFile_err_eq d p { p with file := { p.file with pos := 0 } }
    (by omega) rfl
  rw [hsw] at h2
  have heq : (validateFile d (swapData p data2)).1 = (validateFile d p).1 := by
    rw [h1, h2]
  refine ⟨heq, ?_⟩
  intro e q hentry hprod
  rw [heq, validateFile_of_entry d p q e (by omega) hentry, if_pos hprod]

/-- C19 (counterexample). Two 21-byte files that differ only in the byte at
offset `length - 21 = 0`: one passes `validateFile`, the other fails with
`ErrUnexpectedEOF`, because the product-entry check reads that byte as the
start of the first filename. -/
theorem validateFile_reads_marker_of_tiny_file :
    tinyArchive.length = 21 ∧ tinyArchiveMarked.length = 21
    ∧ tinyArchiveMarked.drop 1 = tinyArchive.drop 1
    ∧ (validateFile pboDecls (opened tinyArchive)).1 = none
    ∧ (validateFile pboDecls (opened tinyArchiveMarked)).1 = some Error.ErrUnexpectedEOF := by
  decide

theorem validateFile_ignores_marker_witness :
    (validateFile pboDecls (swapData (opened goodArchive) markedArchive)).1
        = (validateFile pboDecls (opened goodArchive)).1
    ∧ (validateFile pboDecls (swapData (opened goodArchive) markedArchive)).1 = none := by
  have h := validateFile_ignores_marker pboDecls (opened goodArchive) markedArchive
    (by decide) (by decide) (by decide) (by decide) (by decide)
  exact ⟨h.1, h.2 productEntry ((opened goodArchive).advance 21) (by decide) (by decide)⟩

/-! ## Termination of the header loop -/

theorem readString_ok_val (p p1 : pboStream) (s : List Byte)
    (h : readString p = (s, none, p1)) :
    s = p.rest.takeWhile (fun x => decide (x ≠ 0)) := by
  by_cases h0 : (0 : Byte) ∈ p.rest
  · obtain ⟨t, ht⟩ := split_at_zero p.rest h0
    have hs : ∀ x ∈ p.rest.takeWhile (fun x => decide (x ≠ 0)), x ≠ 0 := by
      intro x hx
      simpa using List.mem_takeWhile_imp hx
    rw [readString_of_zero p _ t hs ht] at h
    simp only [Prod.mk.injEq, true_and] at h
    exact h.1.symm
  · have hs : ∀ x ∈ p.rest, x ≠ 0 := fun x hx hx0 => h0 (hx0 ▸ hx)
    rw [readString_of_eof p hs] at h
    simp at h

/-- After a peek that found a non-zero byte, a `readHeader` that returns no
error has read a non-empty key and moved the cursor by at least 3 bytes. -/
theorem readHeader_ok_inv3 (p p1 : pboStream) (x : Byte) (r k v : List Byte)
    (hrest : p.rest = x :: r) (hx : x ≠ 0) (h : readHeader p = (k, v, none, p1)) :
    k ≠ [] ∧ ∃ n, 3 ≤ n ∧ p1 = p.advance n ∧ p.file.pos + n ≤ p.file.data.length := by
  unfold readHeader at h
  rcases h1 : readString p with ⟨key, err1, q1⟩
  rw [h1] at h
  dsimp only at h
  cases err1 with
  | some y =>
    rw [ite_isSome_some] at h
    simp at h
  | none =>
    obtain ⟨a1, b1⟩ := readString_ok_inv p q1 key h1
    have hkey := readString_ok_val p q1 key h1
    rcases h2 : readString q1 with ⟨value, err2, q2⟩
    rw [ite_isSome_none, h2] at h
    simp only [Prod.mk.injEq] at h
    obtain ⟨hk, _, he, hq⟩ := h
    subst he
    subst hq
    subst hk
    obtain ⟨a2, b2⟩ := readString_ok_inv q1 q2 value h2
    have hne : key ≠ [] := by
      rw [hkey, hrest]
      simp [List.takeWhile_cons, hx]
    have hlen : 1 ≤ key.length := by
      cases key with
      | nil => exact absurd rfl hne
      | cons a l => simp
    subst a1
    subst a2
    simp only [advance_advance, advance_pos, advance_data] at *
    exact ⟨hne, key.length + 1 + (value.length + 1), by omega, rfl, by omega⟩

theorem readHeadersLoop_fuel3 :
    ∀ (n m : Nat) (p : pboStream) (b0 : Byte) (m0 : GoMap (List Byte)),
      p.rest.length / 3 < n → p.rest.length / 3 < m →
      readHeadersLoop n p [b0] m0 = readHeadersLoop m p [b0] m0 := by
  intro n
  induction n with
  | zero => intro m p b0 m0 hn; omega
  | succ n ih =>
    intro m p b0 m0 hn hm
    cases m with
    | zero => omega
    | succ m =>
      unfold readHeadersLoop
      cases hrest : p.rest with
      | nil =>
        have hpos : (some Error.EOF).isSome = true ∨ ([b0] : List Byte).getD 0 0 = 0 :=
          Or.inl rfl
        rw [read_one_nil p b0 hrest]
        dsimp only
        rw [if_pos hpos, if_pos hpos]
      | cons x r =>
        rw [read_one_cons p b0 x r hrest]
        dsimp only
        by_cases hx : x = 0
        · subst hx
          rw [if_pos (show (none : Option Error).isSome = true ∨ ([0] : List Byte).getD 0 0 = 0
            from Or.inr rfl)]
          rw [if_pos (show (none : Option Error).isSome = true ∨ ([0] : List Byte).getD 0 0 = 0
            from Or.inr rfl)]
        · have hne : ¬ ((none : Option Error).isSome = true ∨ ([x] : List Byte).getD 0 0 = 0) := by
            simp [hx]
          rw [if_neg hne, if_neg hne, seek_back_one]
          have e : ({ p with file := p.file } : pboStream) = p := rfl
          rw [e]
          rcases hh : readHeader p with ⟨key, value, err, p3⟩
          dsimp only
          cases err with
          | some y => rw [ite_isSome_some, ite_isSome_some]
          | none =>
            rw [ite_isSome_none, ite_isSome_none]
            obtain ⟨_, k, hk, hp3, hle⟩ := readHeader_ok_inv3 p p3 x r key value hrest hx hh
            subst hp3
            have hl := rest_length p
            have hl1 := rest_length (p.advance k)
            rw [advance_pos, advance_data] at hl1
            exact ih m (p.advance k) x _ (by omega) (by omega)

theorem mem_set {V : Type} (m : GoMap V) (k : List Byte) (v : V) (kv : List Byte × V)
    (h : kv ∈ GoMap.set m k v) : kv = (k, v) ∨ kv ∈ m := by
  induction m with
  | nil => simp [GoMap.set] at h; exact Or.inl h
  | cons e m ih =>
    obtain ⟨a, b⟩ := e
    by_cases ha : a = k
    · simp only [GoMap.set, if_pos ha, List.mem_cons] at h
      rcases h with h | h
      · exact Or.inl h
      · exact Or.inr (List.mem_cons_of_mem _ h)
    · simp only [GoMap.set, if_neg ha, List.mem_cons] at h
      rcases h with h | h
      · exact Or.inr (by simp [h])
      · rcases ih h with h1 | h1
        · exact Or.inl h1
        · exact Or.inr (List.mem_cons_of_mem _ h1)

theorem readHeadersLoop_keys :
    ∀ (n : Nat) (p : pboStream) (b0 : Byte) (m0 : GoMap (List Byte)),
      (∀ kv ∈ m0, kv.1 ≠ []) →
      ∀ kv ∈ (readHeadersLoop n p [b0] m0).1, kv.1 ≠ [] := by
  intro n
  induction n with
  | zero => intro p b0 m0 h0 kv hkv; exact h0 kv (by simpa [readHeadersLoop] using hkv)
  | succ n ih =>
    intro p b0 m0 h0 kv hkv
    unfold readHeadersLoop at hkv
    cases hrest : p.rest with
    | nil =>
      have hpos : (some Error.EOF).isSome = true ∨ ([b0] : List Byte).getD 0 0 = 0 :=
        Or.inl rfl
      rw [read_one_nil p b0 hrest] at hkv
      dsimp only at hkv
      rw [if_pos hpos] at hkv
      exact h0 kv hkv
    | cons x r =>
      rw [read_one_cons p b0 x r hrest] at hkv
      dsimp only at hkv
      by_cases hx : x = 0
      · subst hx
        rw [if_pos (show (none : Option Error).isSome = true ∨ ([0] : List Byte).getD 0 0 = 0
          from Or.inr rfl)] at hkv
        exact h0 kv hkv
      · have hne : ¬ ((none : Option Error).isSome = true ∨ ([x] : List Byte).getD 0 0 = 0) := by
          simp [hx]
        rw [if_neg hne, seek_back_one] at hkv
        have e : ({ p with file := p.file } : pboStream) = p := rfl
        rw [e] at hkv
        rcases hh : readHeader p with ⟨key, value, err, p3⟩
        rw [hh] at hkv
        dsimp only at hkv
        cases err with
        | some y =>
          rw [ite_isSome_none, ite_isSome_some] at hkv
          exact h0 kv hkv
        | none =>
          rw [ite_isSome_none, ite_isSome_none] at hkv
          obtain ⟨hkey, _⟩ := readHeader_ok_inv3 p p3 x r key value hrest hx hh
          refine ih p3 x (GoMap.set m0 key value) ?_ kv hkv
          intro kv1 hkv1
          rcases mem_set m0 key value kv1 hkv1 with h1 | h1
          · rw [h1]; exact hkey
          · exact h0 kv1 h1

/-- Whatever `readHeadersRun` returns, the loop `readHeadersLoop` returns with
the same fuel. -/
theorem readHeadersRun_some :
    ∀ (n : Nat) (p : pboStream) (b : List Byte) (m0 : GoMap (List Byte))
      (r : GoMap (List Byte) × Option Error × pboStream),
      readHeadersRun n p b m0 = some r → readHeadersLoop n p b m0 = r := by
  intro n
  induction n with
  | zero => intro p b m0 r h; simp [readHeadersRun] at h
  | succ n ih =>
    intro p b m0 r h
    unfold readHeadersRun at h
    unfold readHeadersLoop
    generalize p.file.Read b = rd at h ⊢
    obtain ⟨b1, k, err, f1⟩ := rd
    dsimp only at h ⊢
    by_cases hc : err.isSome = true ∨ b1.getD 0 0 = 0
    · rw [if_pos hc] at h ⊢
      exact Option.some.inj h
    · rw [if_neg hc] at h ⊢
      generalize f1.Seek (-1) Whence.SeekCurrent = sk at h ⊢
      obtain ⟨off, err2, f2⟩ := sk
      dsimp only at h ⊢
      cases err2 with
      | some y =>
        rw [ite_isSome_some] at h ⊢
        exact Option.some.inj h
      | none =>
        rw [ite_isSome_none] at h ⊢
        generalize readHeader { p with file := f2 } = rh at h ⊢
        obtain ⟨key, value, err3, p3⟩ := rh
        dsimp only at h ⊢
        cases err3 with
        | some y =>
          rw [ite_isSome_some] at h ⊢
          exact Option.some.inj h
        | none =>
          rw [ite_isSome_none] at h ⊢
          exact ih _ _ _ _ h

/-- A round that goes on: after a peek that found the non-zero byte `x` and a
`readHeader` without error, the loop continues from the stream `readHeader`
left, with the pair stored. -/
theorem readHeadersRun_round (n : Nat) (p p3 : pboStream) (b0 x : Byte) (r key value : List Byte)
    (m0 : GoMap (List Byte)) (hrest : p.rest = x :: r) (hx : x ≠ 0)
    (hh : readHeader p = (key, value, none, p3)) :
    readHeadersRun (n + 1) p [b0] m0 = readHeadersRun n p3 [x] (GoMap.set m0 key value) := by
  have hne : ¬ ((none : Option Error).isSome = true ∨ ([x] : List Byte).getD 0 0 = 0) := by
    simp [hx]
  have e : ({ p with file := p.file } : pboStream) = p := rfl
  rw [readHeadersRun, read_one_cons p b0 x r hrest]
  dsimp only
  rw [if_neg hne, seek_back_one]
  dsimp only
  rw [ite_isSome_none, e, hh]
  dsimp only
  rw [ite_isSome_none]

/-- With fuel above a third of the bytes left the loop returns. -/
theorem readHeadersRun_returns :
    ∀ (n : Nat) (p : pboStream) (b0 : Byte) (m0 : GoMap (List Byte)),
      p.rest.length / 3 < n →
      readHeadersRun n p [b0] m0 = some (readHeadersLoop n p [b0] m0) := by
  intro n
  induction n with
  | zero => intro p b0 m0 hn; omega
  | succ n ih =>
    intro p b0 m0 hn
    cases hrest : p.rest with
    | nil =>
      have hpos : (some Error.EOF).isSome = true ∨ ([b0] : List Byte).getD 0 0 = 0 :=
        Or.inl rfl
      rw [readHeadersRun, readHeadersLoop, read_one_nil p b0 hrest]
      dsimp only
      rw [if_pos hpos, if_pos hpos]
    | cons x r =>
      by_cases hx : x = 0
      · subst hx
        have hpos : (none : Option Error).isSome = true ∨ ([0] : List Byte).getD 0 0 = 0 :=
          Or.inr rfl
        rw [readHeadersRun, readHeadersLoop, read_one_cons p b0 0 r hrest]
        dsimp only
        rw [if_pos hpos, if_pos hpos]
      · have hne : ¬ ((none : Option Error).isSome = true ∨ ([x] : List Byte).getD 0 0 = 0) := by
          simp [hx]
        have e : ({ p with file := p.file } : pboStream) = p := rfl
        rcases hh : readHeader p with ⟨key, value, err, p3⟩
        cases err with
        | some y =>
          rw [readHeadersRun, readHeadersLoop, read_one_cons p b0 x r hrest]
          dsimp only
          rw [if_neg hne, if_neg hne, seek_back_one]
          dsimp only
          rw [ite_isSome_none, ite_isSome_none, e, hh]
          dsimp only
          rw [ite_isSome_some, ite_isSome_some]
        | none =>
          obtain ⟨_, k, hk, hp3, hle⟩ := readHeader_ok_inv3 p p3 x r key value hrest hx hh
          have hl := rest_length p
          have hl1 := rest_length (p.advance k)
          rw [advance_pos, advance_data] at hl1
          rw [readHeadersRun_round n p p3 b0 x r key value m0 hrest hx hh]
          rw [ih p3 x (GoMap.set m0 key value) (by rw [hp3]; omega)]
          congr 1
          rw [readHeadersLoop, read_one_cons p b0 x r hrest]
          dsimp only
          rw [if_neg hne, seek_back_one]
          dsimp only
          rw [ite_isSome_none, e, hh]
          dsimp only
          rw [ite_isSome_none]

/-- C20. The loop of `readHeaders` terminates and never yields an empty key.
Counting rounds with `readHeadersRun`, which gives `none` while the loop has
not returned: within any number of rounds above a third of the bytes left the
loop has returned, and what it returned is the result of `readHeaders`; a
round that goes on (peeked byte non-zero, `readHeader` without error)
continues from the stream `readHeader` left, has read a non-empty key, and
has moved the cursor by at least 3 bytes inside the file; every key of the
returned map is non-empty; and when the byte at the cursor is zero, as for a
pair with an empty key, `readHeaders` takes it for the terminator and returns
the empty map. -/
theorem readHeaders_terminates (p : pboStream) :
    (∀ n, p.rest.length / 3 < n → readHeadersRun n p [0] [] = some (readHeaders p))
    ∧ (∀ (n : Nat) (b0 x : Byte) (r key value : List Byte) (m0 : GoMap (List Byte))
        (p3 : pboStream),
        p.rest = x :: r → x ≠ 0 → readHeader p = (key, value, none, p3) →
        readHeadersRun (n + 1) p [b0] m0 = readHeadersRun n p3 [x] (GoMap.set m0 key value)
        ∧ key ≠ []
        ∧ ∃ j, 3 ≤ j ∧ p3 = p.advance j ∧ p.file.pos + j ≤ p.file.data.length)
    ∧ (∀ kv ∈ (readHeaders p).1, kv.1 ≠ [])
    ∧ (∀ t, p.rest = 0 :: t → readHeaders p = ([], none, p.advance 1)) := by
  have hl := rest_length p
  refine ⟨?_, ?_, ?_, ?_⟩
  · intro n hn
    rw [readHeadersRun_returns n p 0 [] hn]
    exact congrArg some (readHeadersLoop_fuel3 n _ p 0 [] hn (by omega))
  · intro n b0 x r key value m0 p3 hrest hx hh
    exact ⟨readHeadersRun_round n p p3 b0 x r key value m0 hrest hx hh,
      readHeader_ok_inv3 p p3 x r key value hrest hx hh⟩
  · exact readHeadersLoop_keys _ p 0 [] (by simp)
  · intro t ht
    have := readHeadersLoop_pairs t [] (p.file.data.length - p.file.pos + 1) p 0 []
      (by simp) (by simpa [encodeHeaders] using ht) (by simp)
    simpa [readHeaders, encodeHeaders] using this

theorem readHeaders_terminates_witness :
    readHeadersRun 4 (opened sampleHeaders) [0] [] = some (readHeaders (opened sampleHeaders))
    ∧ readHeaders (opened sampleHeaders)
        = ([([98], [50]), ([97], [49])], none, (opened sampleHeaders).advance 9)
    ∧ readHeadersRun 2 (opened sampleHeaders) [0] [] = none
    ∧ readHeadersRun 1 (opened sampleHeaders) [0] []
        = readHeadersRun 0 ((opened sampleHeaders).advance 4) [98] (GoMap.set [] [98] [50])
    ∧ (∀ kv ∈ (readHeaders (opened sampleHeaders)).1, kv.1 ≠ [])
    ∧ readHeaders (opened [0, 120, 0, 0]) = ([], none, (opened [0, 120, 0, 0]).advance 1) := by
  have h := readHeaders_terminates (opened sampleHeaders)
  exact ⟨h.1 4 (by decide), by decide, by decide,
    (h.2.1 0 0 98 [0, 50, 0, 97, 0, 49, 0, 0, 7] [98] [50] [] ((opened sampleHeaders).advance 4)
      (by decide) (by decide) (by decide)).1,
    h.2.2.1,
    (readHeaders_terminates (opened [0, 120, 0, 0])).2.2.2 [120, 0, 0] (by decide)⟩

end Pbo
